import Mathlib

/-!
Verification development for the Ironweaver labeled property graph library.

Python-side code (the LGF parser `lgf_parser.py`, the `filter` wrapper in
`__init__.py`, `embedding_utils.py`) is embedded directly from the source.
The Rust extension module `_ironweaver` (Vertex / Node / Edge store,
ObservedDictionary, serialization, random walks) is not part of the sources
available here; those components are modelled from the specification, as
marked on each definition.

Strings are embedded as lists of characters; Python string methods used by
the sources (`strip`, `split`, `partition`, `find`, `rfind`, `count`,
`startswith`, `endswith`, `splitlines`, `isdigit`, `lower`) are given
faithful executable counterparts below.
-/

namespace Ironweaver

/-- Character-list strings, the representation used throughout the model. -/
abbrev Str := List Char

/-- Whitespace characters recognised by Python `str.strip` / `str.split`. -/
def isWS (c : Char) : Bool :=
  c == ' ' || c == '\t' || c == '\n' || c == '\r' || c == '\x0b' || c == '\x0c'

/-- Python `str.lstrip()`. -/
def lstrip (s : Str) : Str := s.dropWhile isWS

/-- Python `str.rstrip()`. -/
def rstrip (s : Str) : Str := (s.reverse.dropWhile isWS).reverse

/-- Python `str.strip()`. -/
def strip (s : Str) : Str := rstrip (lstrip s)

/-- Python `str.rstrip(",")`: remove every trailing comma. -/
def rstripCommas (s : Str) : Str := (s.reverse.dropWhile (· == ',')).reverse

/-- Python `str.lower()` (ASCII). -/
def lowerStr (s : Str) : Str := s.map Char.toLower

/-- Index of the first occurrence of `pat` in `s` (Python `str.find`),
`none` when absent. -/
def findSub (pat : Str) : Str → Option Nat
  | [] => if pat.isEmpty then some 0 else none
  | c :: t => if pat.isPrefixOf (c :: t) then some 0 else (findSub pat t).map (· + 1)

/-- Index of the last occurrence of character `c` (Python `str.rfind`). -/
def rfindChar (c : Char) (s : Str) : Option Nat :=
  (findSub [c] s.reverse).map (fun i => s.length - 1 - i)

/-- Python `str.split()` with no separator: split on whitespace runs. -/
def wsplitAux : Str → Str → List Str
  | [], acc => if acc.isEmpty then [] else [acc.reverse]
  | c :: t, acc =>
    if isWS c then
      if acc.isEmpty then wsplitAux t [] else acc.reverse :: wsplitAux t []
    else wsplitAux t (c :: acc)

/-- Python `str.split()` on whitespace. -/
def wsplit (s : Str) : List Str := wsplitAux s []

/-- Python `str.split(",")`: split on commas, keeping empty pieces. -/
def splitCommaAux : Str → Str → List Str
  | [], acc => [acc.reverse]
  | c :: t, acc =>
    if c == ',' then acc.reverse :: splitCommaAux t [] else splitCommaAux t (c :: acc)

/-- Python `str.split(",")`. -/
def splitComma (s : Str) : List Str := splitCommaAux s []

/-- Python `str.splitlines()`: split on LF, CR and CRLF, with no trailing
empty line for a trailing terminator. -/
def splitLinesAux : Str → Str → List Str
  | [], acc => if acc.isEmpty then [] else [acc.reverse]
  | '\r' :: '\n' :: t, acc => acc.reverse :: splitLinesAux t []
  | '\n' :: t, acc => acc.reverse :: splitLinesAux t []
  | '\r' :: t, acc => acc.reverse :: splitLinesAux t []
  | c :: t, acc => splitLinesAux t (c :: acc)

/-- Python `str.splitlines()`. -/
def splitLines (s : Str) : List Str := splitLinesAux s []

/-- Python `str.isdigit()` restricted to ASCII digits. -/
def pyIsDigit (s : Str) : Bool := !s.isEmpty && s.all Char.isDigit

/-- Decimal value of an all-digit string. -/
def digitsToNat (s : Str) : Nat := s.foldl (fun a c => a * 10 + (c.toNat - 48)) 0

/-- Float values as produced by Python `float()`: a finite value is kept
exact as `m * 10 ^ e` (mantissa and decimal exponent); infinities and NaN
are tagged.  Numeric equality compares the denoted value (`feq`). -/
inductive FloatVal where
  | finite (m : Int) (e : Int)
  | inf
  | neginf
  | nan
deriving DecidableEq

/-- Parse the digits/dot/exponent part of a Python float literal, after the
optional sign has been removed.  Returns the finite rational value. -/
def pyFloatNumeric (neg : Bool) (r : Str) : Option FloatVal :=
  let ip := r.takeWhile Char.isDigit
  let r1 := r.dropWhile Char.isDigit
  let hasDot := match r1 with | '.' :: _ => true | _ => false
  let fp := if hasDot then (r1.drop 1).takeWhile Char.isDigit else []
  let r2 := if hasDot then (r1.drop 1).dropWhile Char.isDigit else r1
  if ip.isEmpty && fp.isEmpty then none
  else
    let finishExp : Int → Option FloatVal := fun e =>
      let m : Int := (digitsToNat (ip ++ fp) : Int)
      let m : Int := if neg then -m else m
      some (.finite m (e - (fp.length : Int)))
    match r2 with
    | [] => finishExp 0
    | e :: t =>
      if e == 'e' || e == 'E' then
        let (eneg, t2) := match t with
          | '+' :: u => (false, u)
          | '-' :: u => (true, u)
          | u => (false, u)
        if !t2.isEmpty && t2.all Char.isDigit then
          finishExp (if eneg then -(digitsToNat t2 : Int) else (digitsToNat t2 : Int))
        else none
      else none

/-- Python `float(s)` on an already-stripped string: `none` when `float`
raises `ValueError`. -/
def pyFloat (s : Str) : Option FloatVal :=
  let (neg, r) := match s with
    | '+' :: t => (false, t)
    | '-' :: t => (true, t)
    | t => (false, t)
  let rl := lowerStr r
  if rl == ("inf").toList || rl == ("infinity").toList then
    some (if neg then .neginf else .inf)
  else if rl == ("nan").toList then some .nan
  else pyFloatNumeric neg r

mutual
/-- Attribute values: the tagged union of §3 of the specification (Null,
Bool, Int, Float, String, List, Map). -/
inductive Value where
  | null
  | bool (b : Bool)
  | int (z : Int)
  | float (f : FloatVal)
  | str (s : Str)
  | list (xs : VList)
  | vmap (m : VMap)
deriving DecidableEq

/-- Lists of values. -/
inductive VList where
  | nil
  | cons (hd : Value) (tl : VList)
deriving DecidableEq

/-- Ordered string-keyed maps of values (insertion order preserved). -/
inductive VMap where
  | nil
  | cons (k : Str) (v : Value) (tl : VMap)
deriving DecidableEq
end

mutual
/-- Structural size of a value (used to pick fuel for deep equality). -/
def vsize : Value → Nat
  | .null | .bool _ | .int _ | .float _ | .str _ => 1
  | .list xs => 1 + lsize xs
  | .vmap m => 1 + msize m

/-- Structural size of a value list. -/
def lsize : VList → Nat
  | .nil => 1
  | .cons v t => 1 + vsize v + lsize t

/-- Structural size of a value map. -/
def msize : VMap → Nat
  | .nil => 1
  | .cons _ v t => 1 + vsize v + msize t
end

/-- Lookup in an ordered map (Python `dict.get`). -/
def mget : VMap → Str → Option Value
  | .nil, _ => none
  | .cons k v t, key => if k == key then some v else mget t key

/-- Store in an ordered map: update the existing entry in place, or append a
new entry at the tail (Python `dict.__setitem__` ordering). -/
def mset : VMap → Str → Value → VMap
  | .nil, key, v => .cons key v .nil
  | .cons k w t, key, v =>
    if k == key then .cons k v t else .cons k w (mset t key v)

/-- Number of entries of a map. -/
def mlen : VMap → Nat
  | .nil => 0
  | .cons _ _ t => mlen t + 1

/-- Number of elements of a value list. -/
def llen : VList → Nat
  | .nil => 0
  | .cons _ t => llen t + 1

/-- Convert a Lean list of values to a `VList`. -/
def toVList : List Value → VList
  | [] => .nil
  | v :: t => .cons v (toVList t)

/-- Convert a `VList` to a Lean list of values. -/
def ofVList : VList → List Value
  | .nil => []
  | .cons v t => v :: ofVList t

/-- Append one value at the end of a value list. -/
def lappend : VList → Value → VList
  | .nil, v => .cons v .nil
  | .cons h t, v => .cons h (lappend t v)

/-- Python `zip` over two value lists: pairs up to the shorter list. -/
def zipV : VList → VList → List (Value × Value)
  | .cons a as, .cons b bs => (a, b) :: zipV as bs
  | _, _ => []

/-- Equality of float values: finite values compare by denoted numeric
value (cross-scaled to a common decimal exponent), infinities by sign, and
NaN is never equal to anything. -/
def feq : FloatVal → FloatVal → Bool
  | .finite m1 e1, .finite m2 e2 =>
    let d := min e1 e2
    m1 * (10 : Int) ^ (e1 - d).toNat == m2 * (10 : Int) ^ (e2 - d).toNat
  | .inf, .inf => true
  | .neginf, .neginf => true
  | _, _ => false

/-- Numeric comparison of an Int against a Float (by numeric value; never
true against infinities or NaN). -/
def intFloatEq (z : Int) (f : FloatVal) : Bool :=
  match f with
  | .finite m e =>
    if 0 ≤ e then z == m * (10 : Int) ^ e.toNat
    else z * (10 : Int) ^ (-e).toNat == m
  | _ => false

mutual
/-- Fuel-indexed deep structural equality.  Modelled from the spec:
§4.A "Equality compares Null=Null, Bool=Bool, numeric-by-value (Int and
Float compared by numeric value; NaN never equal), String byte-exact, List
element-wise, Map by key set and per-key value equality."  The fuel is a
bound on the recursion depth; `veq` below supplies a sufficient amount. -/
def veqF : Nat → Value → Value → Bool
  | 0, _, _ => false
  | _ + 1, .null, .null => true
  | _ + 1, .bool a, .bool b => a == b
  | _ + 1, .int a, .int b => a == b
  | _ + 1, .float a, .float b => feq a b
  | _ + 1, .int a, .float b => intFloatEq a b
  | _ + 1, .float a, .int b => intFloatEq b a
  | _ + 1, .str a, .str b => a == b
  | fuel + 1, .list a, .list b => vleqF fuel a b
  | fuel + 1, .vmap a, .vmap b => mlen a == mlen b && vmsubF fuel a b
  | _ + 1, _, _ => false

/-- Fuel-indexed element-wise equality of value lists. -/
def vleqF : Nat → VList → VList → Bool
  | 0, _, _ => false
  | _ + 1, .nil, .nil => true
  | fuel + 1, .cons a as, .cons b bs => veqF fuel a b && vleqF fuel as bs
  | _ + 1, _, _ => false

/-- Fuel-indexed check that every entry of the first map has a deep-equal
entry under the same key in the second map. -/
def vmsubF : Nat → VMap → VMap → Bool
  | 0, _, _ => false
  | _ + 1, .nil, _ => true
  | fuel + 1, .cons k v t, b =>
    (match mget b k with
     | some w => veqF fuel v w
     | none => false) && vmsubF fuel t b
end

/-- Deep structural equality of values, per §4.A of the specification. -/
def veq (v w : Value) : Bool := veqF (vsize v + vsize w + 1) v w

/-- Failure signals surfaced to the caller (§7 of the specification), plus
the untyped Python exceptions the sources can actually raise:
`attributeError` models Python `AttributeError` (attribute access on
`None`), `valueError` models a plain `ValueError`, and `ioError` models
filesystem failures.  `parseError` carries a line number and offending
fragment as §7 demands of LGF syntax violations. -/
inductive Err where
  | duplicateId
  | unknownNode
  | notFound
  | typeMismatch
  | parseError (line : Nat) (fragment : Str)
  | ioError
  | valueError
  | attributeError
deriving DecidableEq

/-- Decidable equality for `Except` results, used to evaluate the model on
concrete inputs. -/
def exceptDecEq {α β : Type} [DecidableEq α] [DecidableEq β] :
    DecidableEq (Except α β)
  | .error x, .error y =>
    if h : x = y then .isTrue (by rw [h]) else .isFalse (fun c => h (Except.error.inj c))
  | .ok x, .ok y =>
    if h : x = y then .isTrue (by rw [h]) else .isFalse (fun c => h (Except.ok.inj c))
  | .error _, .ok _ => .isFalse (fun c => Except.noConfusion c)
  | .ok _, .error _ => .isFalse (fun c => Except.noConfusion c)

instance {α β : Type} [DecidableEq α] [DecidableEq β] : DecidableEq (Except α β) :=
  exceptDecEq

/-- Modelled from the spec: outgoing edge record of the Rust `Edge`
(§3).  The source node is the owner, so only the target id and the
attribute map are stored; `from` is implicit. -/
structure EdgeOut where
  tgt : Str
  attr : VMap
deriving DecidableEq

/-- Modelled from the spec: the Rust `Node` (§3): stable id, attribute
map, and owned outgoing edges in insertion order.  Inverse edges are
non-owning back-references and are derived (`inverseEdges`). -/
structure Node where
  id : Str
  attr : VMap
  edges : List EdgeOut
deriving DecidableEq

/-- Modelled from the spec: the Rust `Vertex` graph (§3): ordered node
map (insertion order preserved) and graph-level metadata. -/
structure Graph where
  nodes : List Node
  meta : VMap
deriving DecidableEq

/-- The empty graph (§4.C constructor). -/
def emptyGraph : Graph := { nodes := [], meta := .nil }

/-- Modelled from the spec: `Vertex.has_node` (§4.C). -/
def hasNode (g : Graph) (nid : Str) : Bool := g.nodes.any (fun n => n.id == nid)

/-- Modelled from the spec: `Vertex.get_node` (§4.C), `none` for a
missing id. -/
def getNode (g : Graph) (nid : Str) : Option Node :=
  g.nodes.find? (fun n => n.id == nid)

/-- Modelled from the spec: `Vertex.add_node` (§4.C) — fails with
DuplicateId on an existing id, otherwise inserts at the tail of the node
ordering. -/
def addNode (g : Graph) (nid : Str) (attrs : VMap) : Except Err Graph :=
  if hasNode g nid then .error .duplicateId
  else .ok { g with nodes := g.nodes ++ [{ id := nid, attr := attrs, edges := [] }] }

/-- Replace a node's attribute map wholesale. -/
def setNodeAttrMap (g : Graph) (nid : Str) (a : VMap) : Graph :=
  { g with nodes := g.nodes.map (fun n => if n.id == nid then { n with attr := a } else n) }

/-- Modelled from the spec: `Node.attr_set` (§4.B) as used by the parser,
where no attribute callbacks are ever registered: store the value under
the key (observed-map write with an empty callback list). -/
def nodeAttrSet (g : Graph) (nid : Str) (key : Str) (v : Value) : Graph :=
  { g with nodes := g.nodes.map (fun n =>
      if n.id == nid then { n with attr := mset n.attr key v } else n) }

/-- Reference to an edge: owning node id and index into its edge list. -/
abbrev EdgeRef := Str × Nat

/-- Modelled from the spec: `Vertex.add_edge` (§4.C) — fails with
UnknownNode when an endpoint is missing, otherwise appends the new edge to
the source node's edge list (and implicitly to the target's inverse
list, which is derived).  Returns the reference to the new edge. -/
def addEdge (g : Graph) (fromId toId : Str) (attrs : VMap) :
    Except Err (Graph × EdgeRef) :=
  match getNode g fromId with
  | none => .error .unknownNode
  | some n =>
    if hasNode g toId then
      .ok ({ g with nodes := g.nodes.map (fun m =>
               if m.id == fromId then { m with edges := m.edges ++ [{ tgt := toId, attr := attrs }] } else m) },
           (fromId, n.edges.length))
    else .error .unknownNode

/-- The attribute map of a referenced edge. -/
def getEdgeAttr (g : Graph) (r : EdgeRef) : Option VMap :=
  match getNode g r.1 with
  | some n => (n.edges.get? r.2).map (fun e => e.attr)
  | none => none

/-- Whole-map replacement of a referenced edge's attributes (`edge.attr =
attrs` in the parser; §4.B says whole-map replacement is supported). -/
def setEdgeAttr (g : Graph) (r : EdgeRef) (a : VMap) : Graph :=
  { g with nodes := g.nodes.map (fun n =>
      if n.id == r.1 then
        { n with edges := n.edges.enum.map (fun p =>
            if p.1 == r.2 then { p.2 with attr := a } else p.2) }
      else n) }

/-- Modelled from the spec: a node's `inverse_edges` (§3), derived from
the store: every edge of any node whose target is `nid`, tagged with its
source node's id. -/
def inverseEdges (g : Graph) (nid : Str) : List (Str × EdgeOut) :=
  (g.nodes.map (fun n => (n.edges.filter (fun e => e.tgt == nid)).map (fun e => (n.id, e)))).flatten

/-- Modelled from the spec: `Node.attr_list_append` (§4.B): initialize an
absent key to an empty list then append; append when the value is a list;
otherwise fail with TypeMismatch. -/
def attrListAppend (g : Graph) (nid : Str) (key : Str) (v : Value) :
    Except Err Graph :=
  match getNode g nid with
  | none => .error .unknownNode
  | some n =>
    match mget n.attr key with
    | none => .ok (nodeAttrSet g nid key (.list (.cons v .nil)))
    | some (.list xs) => .ok (nodeAttrSet g nid key (.list (lappend xs v)))
    | some _ => .error .typeMismatch

/-- The single-quote character (avoiding escape pitfalls). -/
def squote : Char := Char.ofNat 39

/-- The double-quote character. -/
def dquote : Char := Char.ofNat 34

/-- Check that `s` both starts and ends with the character `q` (the
Python `startswith`/`endswith` pair used by `_parse_value`; a one-character
string passes both). -/
def isQuotedBy (q : Char) (s : Str) : Bool :=
  ([q].isPrefixOf s) && ([q].isSuffixOf s)

/-- Embedding of `_parse_value` (`lgf_parser.py` lines 8-22): all-digit
strings become Int; then `float`-parseable strings become Float; then
quoted strings are stripped of their quotes; then `true`/`false`
(case-insensitive) become Bool; anything else stays a raw string. -/
def parseValue (value0 : Str) : Value :=
  let value := strip value0
  if pyIsDigit value then .int (digitsToNat value : Int)
  else
    match pyFloat value with
    | some f => .float f
    | none =>
      if isQuotedBy dquote value || isQuotedBy squote value then
        .str ((value.drop 1).dropLast)
      else if lowerStr value == ("true").toList then .bool true
      else if lowerStr value == ("false").toList then .bool false
      else .str value

/-- Embedding of `_parse_list_item` (`lgf_parser.py` lines 25-28): strip,
remove trailing commas, then parse as a value. -/
def parseListItem (item : Str) : Value := parseValue (rstripCommas (strip item))

/-- Parser state carried across lines by `parse_lgf`: the graph under
construction, the current node and edge with the edge's captured indent,
and the state of an in-progress multi-line list. -/
structure PState where
  graph : Graph
  currentNode : Option Str
  currentEdge : Option EdgeRef
  edgeIndent : Nat
  inList : Bool
  listKey : Str
  listItems : List Value
  listIndent : Nat
deriving DecidableEq

/-- Initial parser state over a given graph. -/
def initPState (g : Graph) : PState :=
  { graph := g, currentNode := none, currentEdge := none, edgeIndent := 0,
    inList := false, listKey := [], listItems := [], listIndent := 0 }

/-- Embedding of the forward-arrow recognition (`lgf_parser.py` lines
133-153): a stripped line starting with `-` and containing `->` at index
greater than 1 yields the relationship (with one trailing `-` removed) and
the stripped target, both required non-empty; otherwise the line falls
through to the next syntax class. -/
def fwdArrow (stripped : Str) : Option (Str × Str) :=
  if (("-").toList).isPrefixOf stripped && (findSub (("->").toList) stripped).isSome then
    match findSub (("->").toList) stripped with
    | some ap =>
      if ap > 1 then
        let relPart := (stripped.drop 1).take (ap - 1)
        let targetPart := strip (stripped.drop (ap + 2))
        let rel := if (("-").toList).isSuffixOf relPart then relPart.dropLast else relPart
        if !rel.isEmpty && !targetPart.isEmpty then some (rel, targetPart) else none
      else none
    | none => none
  else none

/-- Embedding of the inverse-arrow recognition (`lgf_parser.py` lines
156-171): a stripped line starting with `<-` and holding at least two
dashes; the relationship runs to the last dash of the remainder and the
target follows it, both required non-empty; otherwise fall through. -/
def invArrow (stripped : Str) : Option (Str × Str) :=
  if (("<-").toList).isPrefixOf stripped && stripped.count ('-') ≥ 2 then
    let rest := stripped.drop 2
    if rest.contains ('-') then
      match rfindChar ('-') rest with
      | some dp =>
        if dp > 0 then
          let rel := rest.take dp
          let target := strip (rest.drop (dp + 1))
          if !target.isEmpty && !rel.isEmpty then some (rel, target) else none
        else none
      | none => none
    else none
  else none

/-- Python `str.partition("=")` as used on attribute lines: the text
before the first `=` and the text after it (empty when `=` is absent). -/
def partitionEq : Str → (Str × Str)
  | [] => ([], [])
  | c :: t => if c == '=' then ([], t) else
      let p := partitionEq t
      (c :: p.1, p.2)

/-- The `{type: RELATION}` attribute map given to arrow-created edges. -/
def typeAttr (rel : Str) : VMap := .cons (("type").toList) (.str rel) .nil

/-- Edge creation for a forward arrow line (`lgf_parser.py` lines
148-153): create the target node with empty attributes when absent, then
add an edge from the current node to the target; accessing
`current_node.id` with no current node raises (AttributeError). -/
def edgeStepFwd (st : PState) (indent : Nat) (rel target : Str) :
    Except Err PState :=
  let g := st.graph
  let g1 := if hasNode g target then g else
    match addNode g target .nil with
    | .ok g2 => g2
    | .error _ => g
  match st.currentNode with
  | none => .error .attributeError
  | some nid =>
    match addEdge g1 nid target (typeAttr rel) with
    | .ok (g2, r) =>
      .ok { st with graph := g2, currentEdge := some r, edgeIndent := indent }
    | .error e => .error e

/-- Edge creation for an inverse arrow line (`lgf_parser.py` lines
165-171): create the target node when absent, then add an edge from the
target to the current node. -/
def edgeStepInv (st : PState) (indent : Nat) (rel target : Str) :
    Except Err PState :=
  let g := st.graph
  let g1 := if hasNode g target then g else
    match addNode g target .nil with
    | .ok g2 => g2
    | .error _ => g
  match st.currentNode with
  | none => .error .attributeError
  | some nid =>
    match addEdge g1 target nid (typeAttr rel) with
    | .ok (g2, r) =>
      .ok { st with graph := g2, currentEdge := some r, edgeIndent := indent }
    | .error e => .error e

/-- Storing a parsed attribute value into the current node (`lgf_parser.py`
lines 210-212): `current_node.attr_set(key, value)` and the current edge
is cleared; with no current node this is a Python AttributeError. -/
def storeAttrNode (st : PState) (key : Str) (v : Value) : Except Err PState :=
  match st.currentNode with
  | some nid =>
    .ok { st with graph := nodeAttrSet st.graph nid key v, currentEdge := none }
  | none => .error .attributeError

/-- Storing a parsed attribute value (`lgf_parser.py` lines 206-212): when
a current edge exists and the line is indented deeper than the edge's
indent the assignment targets the edge's attribute map (copied, updated,
and replaced wholesale); otherwise it targets the current node. -/
def storeAttr (st : PState) (indent : Nat) (key : Str) (v : Value) :
    Except Err PState :=
  match st.currentEdge with
  | some r =>
    if indent > st.edgeIndent then
      match getEdgeAttr st.graph r with
      | some a => .ok { st with graph := setEdgeAttr st.graph r (mset a key v) }
      | none => .error .attributeError
    else storeAttrNode st key v
  | none => storeAttrNode st key v

/-- Saving a completed multi-line list into the current node
(`lgf_parser.py` line 86); the current edge is not cleared here. -/
def storeListNode (st : PState) (v : Value) : Except Err PState :=
  match st.currentNode with
  | some nid =>
    .ok { st with
          graph := nodeAttrSet st.graph nid st.listKey v
          inList := false
          listKey := []
          listItems := []
          listIndent := 0 }
  | none => .error .attributeError

/-- Saving a completed multi-line list (`lgf_parser.py` lines 80-93):
targets the edge when a current edge exists and the list's opening indent
exceeds the edge indent, else the current node; then the list state is
reset. -/
def storeList (st : PState) (items : List Value) : Except Err PState :=
  let v := Value.list (toVList items)
  match st.currentEdge with
  | some r =>
    if st.listIndent > st.edgeIndent then
      match getEdgeAttr st.graph r with
      | some a =>
        .ok { st with
              graph := setEdgeAttr st.graph r (mset a st.listKey v)
              inList := false
              listKey := []
              listItems := []
              listIndent := 0 }
      | none => .error .attributeError
    else storeListNode st v
  | none => storeListNode st v

/-- A column-0 node header (`lgf_parser.py` lines 116-130):
whitespace-split; first token is the node id, the rest the labels.  An
existing node has its `labels` attribute updated; a new node is created
with `{labels: [...]}`.  The current node becomes this node and the
current edge is cleared. -/
def headerStep (st : PState) (stripped : Str) : Except Err PState :=
  match wsplit stripped with
  | [] => .ok st
  | nodeId :: rest =>
    let labels := Value.list (toVList (rest.map Value.str))
    if hasNode st.graph nodeId then
      .ok { st with
            graph := nodeAttrSet st.graph nodeId (("labels").toList) labels
            currentNode := some nodeId
            currentEdge := none }
    else
      match addNode st.graph nodeId (.cons (("labels").toList) labels .nil) with
      | .ok g2 =>
        .ok { st with graph := g2, currentNode := some nodeId, currentEdge := none }
      | .error e => .error e

/-- The attribute-assignment tail of the line interpreter
(`lgf_parser.py` lines 173-212): split at the first `=`, then either a
single-line list, the opening of a multi-line list, or a scalar value
stored by the indent rule. -/
def attrStep (st : PState) (indent : Nat) (stripped : Str) : Except Err PState :=
  let p := partitionEq stripped
  let key := strip p.1
  let valueStr := strip p.2
  if (("[").toList).isPrefixOf valueStr then
    if (("]").toList).isSuffixOf valueStr then
      let inner := (valueStr.drop 1).dropLast
      let v := if (strip inner).isEmpty then Value.list .nil
               else Value.list (toVList
                 ((((splitComma inner).map strip).filter
                    (fun i => !i.isEmpty)).map parseValue))
      storeAttr st indent key v
    else
      .ok { st with
            inList := true
            listKey := key
            listItems :=
              (let ab := strip (valueStr.drop 1)
               if ab.isEmpty then [] else [parseListItem ab])
            listIndent := indent }
  else
    storeAttr st indent key (parseValue valueStr)

/-- One line of `parse_lgf` (`lgf_parser.py` lines 65-212).  The `import`
branch consults the filesystem, which is outside the scope of this
embedding (§1 treats persistence wiring as external); it is modelled as an
IOError failure.  Every other branch is transcribed from the source. -/
def parseLine (st : PState) (raw : Str) : Except Err PState :=
  let stripped := strip raw
  if stripped.isEmpty || (("#").toList).isPrefixOf stripped then .ok st
  else
    let indent := raw.length - (lstrip raw).length
    if st.inList then
      if stripped.contains (']') then
        let beforeBracket := stripped.takeWhile (fun c => c != ']')
        let items := if (strip beforeBracket).isEmpty then st.listItems
                     else st.listItems ++ [parseListItem beforeBracket]
        storeList st items
      else
        .ok { st with listItems := st.listItems ++ [parseListItem stripped] }
    else if indent == 0 && (("import(").toList).isPrefixOf stripped &&
            ((")").toList).isSuffixOf stripped then
      .error .ioError
    else if indent == 0 then headerStep st stripped
    else
      match fwdArrow stripped with
      | some (rel, target) => edgeStepFwd st indent rel target
      | none =>
        match invArrow stripped with
        | some (rel, target) => edgeStepInv st indent rel target
        | none => attrStep st indent stripped

/-- Modelled from the spec: the Rust `ObservedDictionary` (§4.A), a
mapping with per-key change callbacks.  Callbacks are opaque here and are
identified by numbers; an invocation is recorded as a `CbCall`.  The owner
reference passed through to callbacks is likewise an opaque number. -/
structure ObservedDict where
  owner : Nat
  data : VMap
  callbacks : List (Str × Nat)
deriving DecidableEq

/-- One recorded callback invocation `cb(owner, key, new_value,
old_value)`. -/
structure CbCall where
  cb : Nat
  owner : Nat
  key : Str
  newVal : Value
  oldVal : Value
deriving DecidableEq

/-- The callbacks registered for a key, in registration order. -/
def callbacksFor (d : ObservedDict) (k : Str) : List Nat :=
  (d.callbacks.filter (fun p => p.1 == k)).map (fun p => p.2)

/-- Modelled from the spec: `ObservedDictionary.__setitem__` (§4.A): look
up the previous value; if the new value is deep-structurally equal the
write is a no-op; otherwise store, then invoke every callback for the key
in registration order with `(owner, key, new_value, old_value)`, where the
old value is Null when the key was absent.  Returns the updated dictionary
together with the list of invocations, in order. -/
def setItem (d : ObservedDict) (k : Str) (v : Value) :
    ObservedDict × List CbCall :=
  match mget d.data k with
  | some w =>
    if veq v w then (d, [])
    else ({ d with data := mset d.data k v },
          (callbacksFor d k).map (fun c =>
            { cb := c, owner := d.owner, key := k, newVal := v, oldVal := w }))
  | none =>
    ({ d with data := mset d.data k v },
     (callbacksFor d k).map (fun c =>
       { cb := c, owner := d.owner, key := k, newVal := v, oldVal := .null }))

/-- Modelled from the spec: the keyword-selector check of the Rust
`Vertex.filter` (§4.E): `ids = [...]` selects by membership, `id = X` is a
one-element shortcut, any other key selects nodes whose attribute under
that key deep-equals the given value.  Several keyword selectors must all
match. -/
def nodeMatchesKwargs (n : Node) (kwargs : List (Str × Value)) : Bool :=
  kwargs.all (fun p =>
    if p.1 == ("ids").toList then
      match p.2 with
      | .list xs => (ofVList xs).any (fun v => v == .str n.id)
      | _ => false
    else if p.1 == ("id").toList then p.2 == .str n.id
    else
      match mget n.attr p.1 with
      | some w => veq w p.2
      | none => false)

/-- Restrict a node's outgoing edges to targets in the kept id set. -/
def restrictEdges (keep : List Str) (n : Node) : Node :=
  { n with edges := n.edges.filter (fun e => keep.contains e.tgt) }

/-- Modelled from the spec: the Rust `Vertex.filter` with keyword
selectors (§4.E): a fresh graph holding the matching nodes (cloned) with
edges restricted to those whose both endpoints were selected. -/
def originalFilter (g : Graph) (kwargs : List (Str × Value)) : Graph :=
  let sel := ((g.nodes.filter (fun n => nodeMatchesKwargs n kwargs)).map (fun n => n.id))
  { nodes := (g.nodes.filter (fun n => sel.contains n.id)).map (restrictEdges sel),
    meta := .nil }

/-- Result shape of the Python `filter` wrapper: either a plain Vertex or
a `FilterResult` (a vertex paired with the matching node ids). -/
inductive FilterOut where
  | vertex (g : Graph)
  | filterRes (g : Graph) (ids : List Str)
deriving DecidableEq

/-- Embedding of `_filter` (`python/ironweaver/__init__.py` lines 30-84):
with a predicate, collect the matching nodes and delegate to the original
filter on their ids (or return an empty FilterResult when none match);
with keyword arguments, delegate directly; with neither, raise
`ValueError`.  The graph itself is only read; it is returned unchanged as
the first component. -/
def vertexFilter (g : Graph) (pred : Option (Node → Bool))
    (kwargs : List (Str × Value)) : Graph × Except Err FilterOut :=
  match pred with
  | some p =>
    let ms := (g.nodes.filter p).map (fun n => n.id)
    if ms.isEmpty then (g, .ok (.filterRes emptyGraph []))
    else (g, .ok (.vertex (originalFilter g
        [((("ids").toList), .list (toVList (ms.map Value.str)))])))
  | none =>
    if kwargs.isEmpty then (g, .error .valueError)
    else (g, .ok (.vertex (originalFilter g kwargs)))

/-- One pass of the `zip` loop of `attach_embeddings_from_meta`
(`embedding_utils.py` lines 16-18): for each `(embedding, node_id)` pair,
fetch the node (UnknownNode when missing, TypeMismatch when the id is not
a string) and append the embedding to its `embeddings` attribute list. -/
def attachPairs (g : Graph) : List (Value × Value) → Except Err Graph
  | [] => .ok g
  | (e, nidv) :: rest =>
    match nidv with
    | .str nid =>
      if hasNode g nid then
        match attrListAppend g nid (("embeddings").toList) e with
        | .ok g2 => attachPairs g2 rest
        | .error err => .error err
      else .error .unknownNode
    | _ => .error .typeMismatch

/-- Embedding of `attach_embeddings_from_meta` (`embedding_utils.py`):
read `embedding` and `embedding_ids` from the graph meta (ValueError when
either is absent, TypeMismatch when either is not a list, matching the
Python TypeError `zip` would raise), then iterate over their `zip` —
which silently truncates to the shorter list — appending each embedding
to its node. -/
def attachEmbeddingsFromMeta (g : Graph) : Except Err Graph :=
  match mget g.meta (("embedding").toList), mget g.meta (("embedding_ids").toList) with
  | some (.list es), some (.list ids) => attachPairs g (zipV es ids)
  | some _, some _ => .error .typeMismatch
  | _, _ => .error .valueError

/-- Fold `parseLine` over a list of lines, stopping at the first error. -/
def parseLines (st : PState) : List Str → Except Err PState
  | [] => .ok st
  | l :: ls =>
    match parseLine st l with
    | .ok st2 => parseLines st2 ls
    | .error e => .error e

/-- Embedding of `parse_lgf` on a fresh graph: split the text into lines
and fold the line interpreter, returning the final graph. -/
def parseLgf (text : Str) : Except Err Graph :=
  match parseLines (initPState emptyGraph) (splitLines text) with
  | .ok st => .ok st.graph
  | .error e => .error e

/-- Outgoing edges of a node id (empty for a missing id). -/
def outEdges (g : Graph) (u : Str) : List EdgeOut :=
  match getNode g u with
  | some n => n.edges
  | none => []

/-- Modelled from the spec: the candidate edges of a random-walk step
(§4.F): all outgoing edges when revisits are allowed, otherwise only those
whose target is not already on the current walk. -/
def walkCands (g : Graph) (visited : List Str) (u : Str) (allowRevisit : Bool) :
    List EdgeOut :=
  (outEdges g u).filter (fun e => allowRevisit || !(visited.contains e.tgt))

/-- Modelled from the spec: the random-walk step loop (§4.F).  `fuel` is
the number of remaining hops; the walk and the attribute maps of the edges
taken so far are accumulated; `rng` supplies the random choices (one
number per step, reduced modulo the candidate count, so every uniform
choice is realised by some stream). -/
def genWalkAux (g : Graph) (allowRevisit : Bool) :
    Nat → List Str → List VMap → Str → List Nat → (List Str × List VMap)
  | 0, walk, eattrs, _, _ => (walk, eattrs)
  | fuel + 1, walk, eattrs, u, rng =>
    let cands := walkCands g walk u allowRevisit
    if cands.isEmpty then (walk, eattrs)
    else
      let e := cands.getD ((rng.headD 0) % cands.length) { tgt := [], attr := .nil }
      genWalkAux g allowRevisit fuel (walk ++ [e.tgt]) (eattrs ++ [e.attr]) e.tgt rng.tail

/-- Modelled from the spec: one random walk (§4.F): starts at `start` and
takes at most `len - 1` hops, so the walk has at most `len` nodes. -/
def genWalk (g : Graph) (start : Str) (len : Nat) (allowRevisit : Bool)
    (rng : List Nat) : List Str × List VMap :=
  if len == 0 then ([], [])
  else genWalkAux g allowRevisit (len - 1) [start] [] start rng

/-- Decimal digits of a natural number (auxiliary, fuel-driven). -/
def natDigits : Nat → Nat → Str
  | 0, _ => []
  | fuel + 1, n => if n == 0 then [] else natDigits fuel (n / 10) ++ [Char.ofNat (48 + n % 10)]

/-- Decimal rendering of a natural number. -/
def natToStr (n : Nat) : Str := if n == 0 then ("0").toList else natDigits (n + 1) n

/-- Decimal rendering of an integer. -/
def intToStr (z : Int) : Str :=
  if z < 0 then ("-").toList ++ natToStr (-z).toNat else natToStr z.toNat

/-- Modelled from the spec: coercion of an edge-type value to a string
(§4.F); edge-type attributes are strings in practice, other scalars render
in the evident way, containers are abbreviated. -/
def pyStr : Value → Str
  | .null => ("None").toList
  | .bool true => ("True").toList
  | .bool false => ("False").toList
  | .int z => intToStr z
  | .float (.finite m e) => intToStr m ++ ("e").toList ++ intToStr e
  | .float .inf => ("inf").toList
  | .float .neginf => ("-inf").toList
  | .float .nan => ("nan").toList
  | .str s => s
  | .list _ => ("<list>").toList
  | .vmap _ => ("<dict>").toList

/-- Interleave node ids with the rendered edge-type values of the edges
taken, per §4.F (`include_edge_types = true`). -/
def interleave (field : Option Str) : List Str → List VMap → List Str
  | [], _ => []
  | [n], _ => [n]
  | n :: ns, a :: tl => n :: pyStr ((mget a (field.getD [])).getD .null) :: interleave field ns tl
  | n :: ns, [] => n :: interleave field ns []

/-- Modelled from the spec: `Vertex.random_walks` (§4.F): up to `count`
walks rooted at `start`, each of at most `len` nodes; walks shorter than
`minLen` nodes are discarded and not replaced; duplicates are retained in
generation order; with `includeTypes` the output interleaves edge-type
renderings.  `rngs` supplies one random stream per iteration. -/
def randomWalks (g : Graph) (start : Str) (len count minLen : Nat)
    (allowRevisit includeTypes : Bool) (field : Option Str)
    (rngs : List (List Nat)) : List (List Str) :=
  (List.range count).filterMap (fun i =>
    let r := genWalk g start len allowRevisit (rngs.getD i [])
    if minLen ≤ r.1.length then
      some (if includeTypes then interleave field r.1 r.2 else r.1)
    else none)

/-- Walk-shape checker: `chainOkFrom g seen u rest` holds when, starting
from node `u` with `seen` already visited, each successive node of `rest`
is reached along an outgoing edge of the previous node and was not
previously on the walk. -/
def chainOkFrom (g : Graph) : List Str → Str → List Str → Bool
  | _, _, [] => true
  | seen, u, b :: rest =>
    ((outEdges g u).any (fun e => e.tgt == b)) && !(seen.contains b) &&
      chainOkFrom g (seen ++ [b]) b rest

mutual
/-- JSON documents (abstract syntax; §4.H).  Numbers keep the Int/Float
distinction, which §6 requires the JSON snapshot to preserve. -/
inductive Json where
  | jnull
  | jbool (b : Bool)
  | jint (z : Int)
  | jfloat (f : FloatVal)
  | jstr (s : Str)
  | jarr (xs : JArr)
  | jobj (m : JObj)
deriving DecidableEq

/-- JSON arrays. -/
inductive JArr where
  | nil
  | cons (hd : Json) (tl : JArr)
deriving DecidableEq

/-- JSON objects (ordered key/value pairs). -/
inductive JObj where
  | nil
  | cons (k : Str) (v : Json) (tl : JObj)
deriving DecidableEq
end

mutual
/-- Encode an attribute value as JSON. -/
def valueToJson : Value → Json
  | .null => .jnull
  | .bool b => .jbool b
  | .int z => .jint z
  | .float f => .jfloat f
  | .str s => .jstr s
  | .list xs => .jarr (vlistToJArr xs)
  | .vmap m => .jobj (vmapToJObj m)

/-- Encode a value list as a JSON array. -/
def vlistToJArr : VList → JArr
  | .nil => .nil
  | .cons v t => .cons (valueToJson v) (vlistToJArr t)

/-- Encode a value map as a JSON object. -/
def vmapToJObj : VMap → JObj
  | .nil => .nil
  | .cons k v t => .cons k (valueToJson v) (vmapToJObj t)
end

mutual
/-- Decode an attribute value from JSON. -/
def jsonToValue : Json → Option Value
  | .jnull => some .null
  | .jbool b => some (.bool b)
  | .jint z => some (.int z)
  | .jfloat f => some (.float f)
  | .jstr s => some (.str s)
  | .jarr xs =>
    match jarrToVList xs with
    | some vs => some (.list vs)
    | none => none
  | .jobj m =>
    match jobjToVMap m with
    | some vm => some (.vmap vm)
    | none => none

/-- Decode a value list from a JSON array. -/
def jarrToVList : JArr → Option VList
  | .nil => some .nil
  | .cons h t =>
    match jsonToValue h, jarrToVList t with
    | some v, some vs => some (.cons v vs)
    | _, _ => none

/-- Decode a value map from a JSON object. -/
def jobjToVMap : JObj → Option VMap
  | .nil => some .nil
  | .cons k h t =>
    match jsonToValue h, jobjToVMap t with
    | some v, some vs => some (.cons k v vs)
    | _, _ => none
end

/-- Modelled from the spec: the logical serialization schema of a single
edge, `{to, attr}` (§4.H). -/
def edgeToValue (e : EdgeOut) : Value :=
  .vmap (.cons (("to").toList) (.str e.tgt)
        (.cons (("attr").toList) (.vmap e.attr) .nil))

/-- Encode an edge list for serialization. -/
def edgesToValue : List EdgeOut → VList
  | [] => .nil
  | e :: t => .cons (edgeToValue e) (edgesToValue t)

/-- Modelled from the spec: the logical serialization schema of a node,
`{id, attr, edges}` (§4.H). -/
def nodeToValue (n : Node) : Value :=
  .vmap (.cons (("id").toList) (.str n.id)
        (.cons (("attr").toList) (.vmap n.attr)
        (.cons (("edges").toList) (.list (edgesToValue n.edges)) .nil)))

/-- Encode the node array for serialization. -/
def nodesToValue : List Node → VList
  | [] => .nil
  | n :: t => .cons (nodeToValue n) (nodesToValue t)

/-- Modelled from the spec: the logical serialization schema of a graph,
`{meta, nodes}` with array order preserving insertion order (§4.H). -/
def graphToValue (g : Graph) : Value :=
  .vmap (.cons (("meta").toList) (.vmap g.meta)
        (.cons (("nodes").toList) (.list (nodesToValue g.nodes)) .nil))

/-- Decode one edge from its serialized form. -/
def valueToEdge : Value → Option EdgeOut
  | .vmap (.cons k1 (.str t) (.cons k2 (.vmap a) .nil)) =>
    if k1 == ("to").toList && k2 == ("attr").toList then
      some { tgt := t, attr := a }
    else none
  | _ => none

/-- Decode the edge list. -/
def valueToEdges : VList → Option (List EdgeOut)
  | .nil => some []
  | .cons v t =>
    match valueToEdge v, valueToEdges t with
    | some e, some es => some (e :: es)
    | _, _ => none

/-- Decode one node from its serialized form; inverse edges are not stored
and are rebuilt implicitly, being derived in this model. -/
def valueToNode : Value → Option Node
  | .vmap (.cons k1 (.str nid) (.cons k2 (.vmap a) (.cons k3 (.list es) .nil))) =>
    if k1 == ("id").toList && k2 == ("attr").toList && k3 == ("edges").toList then
      match valueToEdges es with
      | some el => some { id := nid, attr := a, edges := el }
      | none => none
    else none
  | _ => none

/-- Decode the node array, in order. -/
def valueToNodes : VList → Option (List Node)
  | .nil => some []
  | .cons v t =>
    match valueToNode v, valueToNodes t with
    | some n, some ns => some (n :: ns)
    | _, _ => none

/-- Decode a graph from its serialized logical form. -/
def valueToGraph : Value → Option Graph
  | .vmap (.cons k1 (.vmap meta) (.cons k2 (.list ns) .nil)) =>
    if k1 == ("meta").toList && k2 == ("nodes").toList then
      match valueToNodes ns with
      | some nl => some { nodes := nl, meta := meta }
      | none => none
    else none
  | _ => none

/-- Modelled from the spec: `Vertex.save_to_json` (§4.H): the JSON
document `{meta: {...}, nodes: [{id, attr, edges: [{to, attr}, ...]},
...]}` with insertion order preserved by array order.  Only the format is
in scope (§1); file-handle plumbing is external. -/
def saveToJson (g : Graph) : Json := valueToJson (graphToValue g)

/-- Modelled from the spec: `Vertex.load_from_json` (§4.H): reconstruct
nodes in array order, then edges in their listed order. -/
def loadFromJson (j : Json) : Option Graph :=
  match jsonToValue j with
  | some v => valueToGraph v
  | none => none

/-- Binary tokens: a flat, length-prefixed tagged stream (§4.H describes
the binary snapshot as an implementation-defined compact encoding with the
same logical schema as JSON). -/
inductive BTok where
  | tnull
  | tbool (b : Bool)
  | tint (z : Int)
  | tfloat (f : FloatVal)
  | tstr (s : Str)
  | tlist (n : Nat)
  | tmap (n : Nat)
deriving DecidableEq

mutual
/-- Binary encoding of a value: scalars are single tagged tokens, lists
and maps are length-prefixed and followed by their serialized entries. -/
def encV : Value → List BTok
  | .null => [.tnull]
  | .bool b => [.tbool b]
  | .int z => [.tint z]
  | .float f => [.tfloat f]
  | .str s => [.tstr s]
  | .list xs => .tlist (llen xs) :: encL xs
  | .vmap m => .tmap (mlen m) :: encM m

/-- Binary encoding of the elements of a value list. -/
def encL : VList → List BTok
  | .nil => []
  | .cons v t => encV v ++ encL t

/-- Binary encoding of the entries of a value map (key token, then the
value). -/
def encM : VMap → List BTok
  | .nil => []
  | .cons k v t => .tstr k :: (encV v ++ encM t)
end

mutual
/-- Fuel-driven binary decoder for one value; returns the value and the
remaining tokens.  The fuel bounds the recursion and is decremented on
every nested call; `vsize` of the encoded value is always sufficient. -/
def decV : Nat → List BTok → Option (Value × List BTok)
  | 0, _ => none
  | _ + 1, .tnull :: r => some (.null, r)
  | _ + 1, .tbool b :: r => some (.bool b, r)
  | _ + 1, .tint z :: r => some (.int z, r)
  | _ + 1, .tfloat f :: r => some (.float f, r)
  | _ + 1, .tstr s :: r => some (.str s, r)
  | fuel + 1, .tlist n :: r =>
    match decL fuel n r with
    | some (xs, r2) => some (.list xs, r2)
    | none => none
  | fuel + 1, .tmap n :: r =>
    match decM fuel n r with
    | some (m, r2) => some (.vmap m, r2)
    | none => none
  | _ + 1, [] => none

/-- Decode `n` list elements. -/
def decL : Nat → Nat → List BTok → Option (VList × List BTok)
  | 0, _, _ => none
  | _ + 1, 0, r => some (.nil, r)
  | fuel + 1, n + 1, r =>
    match decV fuel r with
    | some (v, r2) =>
      match decL fuel n r2 with
      | some (vs, r3) => some (.cons v vs, r3)
      | none => none
    | none => none

/-- Decode `n` map entries (key token then value). -/
def decM : Nat → Nat → List BTok → Option (VMap × List BTok)
  | 0, _, _ => none
  | _ + 1, 0, r => some (.nil, r)
  | fuel + 1, n + 1, .tstr k :: r =>
    match decV fuel r with
    | some (v, r2) =>
      match decM fuel n r2 with
      | some (vs, r3) => some (.cons k v vs, r3)
      | none => none
    | none => none
  | _ + 1, _ + 1, _ => none
end

/-- Modelled from the spec: `Vertex.save_to_binary` (§4.H): the binary
snapshot of the graph's logical serialized form. -/
def saveToBinary (g : Graph) : List BTok := encV (graphToValue g)

/-- Modelled from the spec: `Vertex.load_from_binary` (§4.H): decode one
value from the token stream (with ample fuel), requiring the stream to be
fully consumed, then rebuild the graph. -/
def loadFromBinary (toks : List BTok) : Option Graph :=
  match decV (4 * toks.length) toks with
  | some (v, []) => valueToGraph v
  | _ => none

/-! Theorems. -/

/-- Bridge from a refuted `isPrefixOf` test to the prefix relation. -/
theorem isPrefixOf_false_not {a b : Str} (h : a.isPrefixOf b = false) :
    ¬ a <+: b := by
  intro hc
  have h2 : a.isPrefixOf b = true := by simpa using hc
  rw [h2] at h
  exact Bool.noConfusion h

/-- Bridge from a refuted `isSuffixOf` test to the suffix relation. -/
theorem isSuffixOf_false_not {a b : Str} (h : a.isSuffixOf b = false) :
    ¬ a <:+ b := by
  intro hc
  have h2 : a.isSuffixOf b = true := by simpa using hc
  rw [h2] at h
  exact Bool.noConfusion h

/-- Is a parser outcome a ParseError (with line number and fragment)? -/
def isParseErr : Except Err Graph → Bool
  | .error (.parseError _ _) => true
  | _ => false

/-- The LGF input of claim C3's example: an indented `key = value` line
appearing before any column-0 node header. -/
def c3Input : Str := ("  key = value").toList

/-- C10: for every graph, calling `filter` with neither a predicate
callable nor any keyword selector raises ValueError and leaves the graph
unchanged. -/
theorem C10_filter_no_selector (g : Graph) :
    vertexFilter g none [] = (g, .error .valueError) := rfl

/-- C5: the value grammar of `_parse_value` follows the claimed
precedence: all-digit strings become Int; otherwise float-parseable
strings become Float; otherwise strings enclosed in matching single or
double quotes have their quotes stripped; otherwise `true`/`false`
case-insensitively become Bool; otherwise the raw string is kept. -/
theorem C5_value_grammar (s : Str) :
    (pyIsDigit (strip s) = true →
      parseValue s = .int (digitsToNat (strip s))) ∧
    (pyIsDigit (strip s) = false → ∀ f, pyFloat (strip s) = some f →
      parseValue s = .float f) ∧
    (pyIsDigit (strip s) = false → pyFloat (strip s) = none →
      (isQuotedBy dquote (strip s) || isQuotedBy squote (strip s)) = true →
      parseValue s = .str (((strip s).drop 1).dropLast)) ∧
    (pyIsDigit (strip s) = false → pyFloat (strip s) = none →
      (isQuotedBy dquote (strip s) || isQuotedBy squote (strip s)) = false →
      lowerStr (strip s) = ("true").toList → parseValue s = .bool true) ∧
    (pyIsDigit (strip s) = false → pyFloat (strip s) = none →
      (isQuotedBy dquote (strip s) || isQuotedBy squote (strip s)) = false →
      lowerStr (strip s) = ("false").toList → parseValue s = .bool false) ∧
    (pyIsDigit (strip s) = false → pyFloat (strip s) = none →
      (isQuotedBy dquote (strip s) || isQuotedBy squote (strip s)) = false →
      lowerStr (strip s) ≠ ("true").toList →
      lowerStr (strip s) ≠ ("false").toList →
      parseValue s = .str (strip s)) := by
  refine ⟨?_, ?_, ?_, ?_, ?_, ?_⟩
  · intro h; simp [parseValue, h]
  · intro h f hf; simp [parseValue, h, hf]
  · intro h hf hq; simp [parseValue, h, hf, hq]
  · intro h hf hq ht; simp [parseValue, h, hf, hq, ht]
  · intro h hf hq ht
    have hne : lowerStr (strip s) ≠ ("true").toList := by
      rw [ht]; decide
    simp [parseValue, h, hf, hq, ht, hne]
  · intro h hf hq ht hn
    have ht2 : lowerStr (strip s) ≠ (['t', 'r', 'u', 'e'] : Str) := by simpa using ht
    have hn2 : lowerStr (strip s) ≠ (['f', 'a', 'l', 's', 'e'] : Str) := by simpa using hn
    simp [parseValue, h, hf, hq, ht2, hn2]

/-- C5 witness: the grammar evaluated at `30` (Int branch) and at `Alice`
(raw-string branch). -/
theorem C5_value_grammar_witness :
    (pyIsDigit (strip (("30").toList)) = true ∧
      parseValue (("30").toList) = .int (digitsToNat (strip (("30").toList)))) ∧
    (pyIsDigit (strip (("Alice").toList)) = false ∧
      parseValue (("Alice").toList) = .str (strip (("Alice").toList))) :=
  ⟨⟨by decide, (C5_value_grammar (("30").toList)).1 (by decide)⟩,
   ⟨by decide,
    (C5_value_grammar (("Alice").toList)).2.2.2.2.2
      (by decide) (by decide) (by decide) (by decide) (by decide)⟩⟩

/-- C3 counterexample: on the syntax-violating input `"  key = value"`
(an indented assignment before any node header) the parser fails with an
untyped AttributeError carrying no line number and no fragment — not with
a ParseError as the claim states. -/
theorem C3_counterexample :
    parseLgf c3Input = .error .attributeError ∧
    isParseErr (parseLgf c3Input) = false := by
  constructor
  · decide
  · decide

/-- C3 amended: an indented `key = value` line (one that is not blank, not
a comment, and matches neither arrow form nor a multi-line list opening)
appearing as the first content line fails the whole parse with the untyped
AttributeError — no ParseError with line number and fragment is ever
produced. -/
theorem C3_amended_attr_error (raw : Str) (rest : List Str)
    (hne : strip raw ≠ [])
    (hcm : (("#").toList).isPrefixOf (strip raw) = false)
    (hind : 0 < raw.length - (lstrip raw).length)
    (hfwd : fwdArrow (strip raw) = none)
    (hinv : invArrow (strip raw) = none)
    (hlist : (("[").toList).isPrefixOf (strip (partitionEq (strip raw)).2) = true →
      (("]").toList).isSuffixOf (strip (partitionEq (strip raw)).2) = true) :
    parseLines (initPState emptyGraph) (raw :: rest) = .error .attributeError := by
  have hin : (initPState emptyGraph).inList = false := rfl
  have hcn : (initPState emptyGraph).currentNode = none := rfl
  have hce : (initPState emptyGraph).currentEdge = none := rfl
  have hindne : (raw.length - (lstrip raw).length == 0) = false := by
    simp only [beq_eq_false_iff_ne, ne_eq]
    omega
  have hcp : ¬ (['#'] : Str) <+: strip raw := by
    have := isPrefixOf_false_not hcm
    simpa using this
  have hl : parseLine (initPState emptyGraph) raw = .error .attributeError := by
    by_cases hb : (("[").toList).isPrefixOf (strip (partitionEq (strip raw)).2) = true
    · have hb2 := hlist hb
      have hbp : (['['] : Str) <+: strip (partitionEq (strip raw)).2 := by simpa using hb
      have hbs : ([']'] : Str) <:+ strip (partitionEq (strip raw)).2 := by simpa using hb2
      simp [parseLine, attrStep, hne, hcm, hcp, hindne, hfwd, hinv, hbp, hbs,
        storeAttr, storeAttrNode, initPState]
    · have hbp : ¬ (['['] : Str) <+: strip (partitionEq (strip raw)).2 := by
        intro hc
        apply hb
        simpa using hc
      simp [parseLine, attrStep, hne, hcm, hcp, hindne, hfwd, hinv, hbp,
        storeAttr, storeAttrNode, initPState]
  rw [parseLines, hl]

/-- C3 amended witness: the whole-input parse of the example line fails
with the untyped AttributeError. -/
theorem C3_amended_witness :
    parseLines (initPState emptyGraph) (c3Input :: []) = .error .attributeError :=
  C3_amended_attr_error c3Input [] (by decide) (by decide) (by decide)
    (by decide) (by decide) (by decide)

/-- C1: observed-map write semantics: writing a value deep-equal to the
previous one is a no-op with no callback; otherwise the value is stored
and every callback registered for the key fires exactly once, in
registration order, with `(owner, key, new_value, old_value)`, the old
value being Null when the key was absent. -/
theorem C1_observed_write (d : ObservedDict) (k : Str) (v : Value) :
    (∀ w, mget d.data k = some w → veq v w = true →
      setItem d k v = (d, [])) ∧
    (∀ w, mget d.data k = some w → veq v w = false →
      setItem d k v =
        ({ d with data := mset d.data k v },
         (callbacksFor d k).map (fun c =>
           { cb := c, owner := d.owner, key := k, newVal := v, oldVal := w }))) ∧
    (mget d.data k = none →
      setItem d k v =
        ({ d with data := mset d.data k v },
         (callbacksFor d k).map (fun c =>
           { cb := c, owner := d.owner, key := k, newVal := v, oldVal := Value.null }))) := by
  refine ⟨?_, ?_, ?_⟩
  · intro w hw he; simp [setItem, hw, he]
  · intro w hw he; simp [setItem, hw, he]
  · intro hw; simp [setItem, hw]

/-- The observed dictionary of scenario S6: one callback on key `foo`. -/
def obsD0 : ObservedDict :=
  { owner := 0, data := .nil, callbacks := [((("foo").toList), 0)] }

/-- The S6 dictionary after `d["foo"] = 1`. -/
def obsD1 : ObservedDict :=
  { owner := 0, data := .cons (("foo").toList) (.int 1) .nil,
    callbacks := [((("foo").toList), 0)] }

/-- C1 witness: scenario S6 — `d["foo"]=1` fires once with old value
Null; `d["foo"]=1` again fires nothing and changes nothing; `d["foo"]=2`
fires once with old value 1. -/
theorem C1_observed_write_witness :
    (mget obsD0.data (("foo").toList) = none ∧
      setItem obsD0 (("foo").toList) (.int 1) =
        (obsD1, [{ cb := 0, owner := 0, key := ("foo").toList,
                   newVal := .int 1, oldVal := .null }])) ∧
    (veq (.int 1) (.int 1) = true ∧
      setItem obsD1 (("foo").toList) (.int 1) = (obsD1, [])) ∧
    (veq (.int 2) (.int 1) = false ∧
      setItem obsD1 (("foo").toList) (.int 2) =
        ({ owner := 0, data := .cons (("foo").toList) (.int 2) .nil,
           callbacks := [((("foo").toList), 0)] },
         [{ cb := 0, owner := 0, key := ("foo").toList,
            newVal := .int 2, oldVal := .int 1 }])) := by
  refine ⟨⟨by decide, ?_⟩, ⟨by decide, ?_⟩, ⟨by decide, ?_⟩⟩
  · have h := (C1_observed_write obsD0 (("foo").toList) (.int 1)).2.2 (by decide)
    rw [h]; decide
  · have h := (C1_observed_write obsD1 (("foo").toList) (.int 1)).1 (.int 1)
      (by decide) (by decide)
    rw [h]
  · have h := (C1_observed_write obsD1 (("foo").toList) (.int 2)).2.1 (.int 1)
      (by decide) (by decide)
    rw [h]; decide

/-- Length of a Python `zip`: the shorter of the two lists. -/
theorem zipV_length : ∀ (es ids : VList),
    (zipV es ids).length = min (llen es) (llen ids)
  | .nil, .nil => by simp [zipV, llen]
  | .nil, .cons _ _ => by simp [zipV, llen]
  | .cons _ _, .nil => by simp [zipV, llen]
  | .cons v t, .cons w u => by
    have ih := zipV_length t u
    simp [zipV, llen, ih]
    omega

/-- Embeddings list of the C9 example: two embeddings. -/
def c9Emb : VList := .cons (.int 1) (.cons (.int 2) .nil)

/-- Ids list of the C9 example: a single id. -/
def c9Ids : VList := .cons (.str (("n1").toList)) .nil

/-- The C9 example graph: one node, meta embeddings of mismatched
lengths. -/
def c9Graph : Graph :=
  { nodes := [{ id := ("n1").toList, attr := .nil, edges := [] }],
    meta := .cons (("embedding").toList) (.list c9Emb)
           (.cons (("embedding_ids").toList) (.list c9Ids) .nil) }

/-- C9 counterexample: with meta `embedding` of length 2 and
`embedding_ids` of length 1, `attach_embeddings_from_meta` succeeds —
silently truncating to the single zipped pair — instead of failing with
TypeMismatch as the claim states. -/
theorem C9_counterexample :
    llen c9Emb ≠ llen c9Ids ∧
    attachEmbeddingsFromMeta c9Graph =
      .ok { nodes := [{ id := ("n1").toList,
                        attr := .cons (("embeddings").toList)
                                 (.list (.cons (.int 1) .nil)) .nil,
                        edges := [] }],
            meta := c9Graph.meta } := by
  constructor
  · decide
  · decide

/-- C9 amended: when both meta entries are lists,
`attach_embeddings_from_meta` performs no length check at all: it
processes exactly the `zip` of the two lists, whose length is the minimum
of the two lengths — silently truncating to the shorter list rather than
failing with TypeMismatch. -/
theorem C9_amended_truncates (g : Graph) (es ids : VList)
    (h1 : mget g.meta (("embedding").toList) = some (.list es))
    (h2 : mget g.meta (("embedding_ids").toList) = some (.list ids)) :
    attachEmbeddingsFromMeta g = attachPairs g (zipV es ids) ∧
    (zipV es ids).length = min (llen es) (llen ids) := by
  constructor
  · have h1b : mget g.meta (("embedding").toList) = some (Value.list es) := h1
    have h2b : mget g.meta (("embedding_ids").toList) = some (Value.list ids) := h2
    simp only [String.toList] at h1b h2b
    simp [attachEmbeddingsFromMeta, h1b, h2b]
  · exact zipV_length es ids

/-- C9 amended witness: the truncation semantics evaluated on the
mismatched-length example. -/
theorem C9_amended_truncates_witness :
    attachEmbeddingsFromMeta c9Graph = attachPairs c9Graph (zipV c9Emb c9Ids) ∧
    (zipV c9Emb c9Ids).length = min (llen c9Emb) (llen c9Ids) :=
  C9_amended_truncates c9Graph c9Emb c9Ids (by decide) (by decide)

/-! Routing lemmas for line-level parser theorems. -/

/-- Leading spaces are removed by `lstrip`. -/
theorem lstrip_replicate (k : Nat) (s : Str) :
    lstrip (List.replicate k (' ') ++ s) = lstrip s := by
  induction k with
  | zero => simp
  | succ n ih =>
    rw [List.replicate_succ, List.cons_append, lstrip, List.dropWhile_cons]
    have hws : isWS (' ') = true := by decide
    rw [hws]
    exact ih

/-- A string with no whitespace characters is fixed by `strip`. -/
theorem strip_of_all_nonWS (s : Str) (h : ∀ c ∈ s, isWS c = false) :
    strip s = s := by
  have hl : lstrip s = s := by
    cases s with
    | nil => rfl
    | cons c t =>
      rw [lstrip, List.dropWhile_cons, h c (List.mem_cons_self c t)]
      simp
  have hr : rstrip s = s := by
    rcases List.eq_nil_or_concat s with hnil | ⟨l, c, hlc⟩
    · simp [hnil, rstrip]
    · subst hlc
      rw [List.concat_eq_append] at h ⊢
      rw [rstrip]
      rw [List.reverse_append, List.reverse_cons, List.reverse_nil, List.nil_append,
        List.cons_append, List.dropWhile_cons,
        h c (by simp)]
      simp
  rw [strip, hl, hr]

/-- `strip` of an indented line whose content is fixed by both one-sided
strips. -/
theorem strip_pad (k : Nat) (s : Str) (h1 : lstrip s = s) (h2 : rstrip s = s) :
    strip (List.replicate k (' ') ++ s) = s := by
  rw [strip, lstrip_replicate, h1, h2]

/-- The computed indent of an indented line is its leading-space count. -/
theorem indent_pad (k : Nat) (s : Str) (h1 : lstrip s = s) :
    (List.replicate k (' ') ++ s).length - (lstrip (List.replicate k (' ') ++ s)).length = k := by
  rw [lstrip_replicate, h1]
  simp

/-- Python `partition("=")` splits at the first `=`. -/
theorem partitionEq_no_eq (key vs : Str) (h : ('=') ∉ key) :
    partitionEq (key ++ ('=') :: vs) = (key, vs) := by
  induction key with
  | nil => simp [partitionEq]
  | cons c t ih =>
    have hc : (c == ('=')) = false := by
      have : c ≠ ('=') := fun hc => h (hc ▸ List.mem_cons_self c t)
      simpa using this
    have ht : ('=') ∉ t := fun hm => h (List.mem_cons_of_mem c hm)
    simp [partitionEq, hc, ih ht]

/-- `findSub` locates the first occurrence of a single character. -/
theorem findSub_single (c : Char) (l1 l2 : Str) (h : c ∉ l1) :
    findSub [c] (l1 ++ c :: l2) = some l1.length := by
  induction l1 with
  | nil =>
    rw [List.nil_append, findSub]
    have : ([c]).isPrefixOf (c :: l2) = true := by
      simp [List.isPrefixOf]
    rw [this]
    simp
  | cons a t ih =>
    have ha : (c == a) = false := by
      have : c ≠ a := fun hc => h (hc ▸ List.mem_cons_self a t)
      simpa using this
    have ht : c ∉ t := fun hm => h (List.mem_cons_of_mem a hm)
    rw [List.cons_append, findSub]
    have hpf : ([c]).isPrefixOf (a :: (t ++ c :: l2)) = false := by
      simp [List.isPrefixOf, ha]
    rw [hpf]
    simp [ih ht]

/-- `rfindChar` locates the last occurrence of a character. -/
theorem rfindChar_last (c : Char) (a b : Str) (hb : c ∉ b) :
    rfindChar c (a ++ c :: b) = some a.length := by
  rw [rfindChar]
  have hrev : (a ++ c :: b).reverse = b.reverse ++ c :: a.reverse := by simp
  rw [hrev, findSub_single c b.reverse a.reverse (by simpa using hb)]
  simp


/-- A one-character prefix forces equality of heads. -/
theorem not_singleton_prefix_of_ne {a b : Char} (l : List Char) (h : a ≠ b) :
    ¬ [a] <+: (b :: l) := by
  intro hc
  obtain ⟨t2, ht⟩ := hc
  rw [List.cons_append, List.nil_append] at ht
  injection ht with h1 _
  exact h h1

/-- A string ending in a non-empty whitespace-free block is fixed by
`rstrip`. -/
theorem rstrip_append_nonWS (a b : Str) (hb : b ≠ [])
    (hbWS : ∀ c ∈ b, isWS c = false) :
    rstrip (a ++ b) = a ++ b := by
  rcases List.eq_nil_or_concat b with hnil | ⟨l, c, hlc⟩
  · exact absurd hnil hb
  · subst hlc
    rw [List.concat_eq_append] at hbWS ⊢
    rw [rstrip, show a ++ (l ++ [c]) = (a ++ l) ++ [c] by simp, List.reverse_append]
    simp only [List.reverse_cons, List.reverse_nil, List.nil_append, List.cons_append]
    rw [List.dropWhile_cons, hbWS c (by simp)]
    simp

/-- A node id reported present has a `get_node` witness. -/
theorem getNode_of_hasNode (g : Graph) (x : Str) (h : hasNode g x = true) :
    ∃ n, getNode g x = some n := by
  rw [hasNode, List.any_eq_true] at h
  have h2 : (g.nodes.find? (fun n => n.id == x)).isSome = true :=
    List.find?_isSome.mpr h
  exact Option.isSome_iff_exists.mp h2

/-- A node id reported absent makes the node search fail. -/
theorem find_none_of_not_hasNode (g : Graph) (x : Str) (h : hasNode g x = false) :
    g.nodes.find? (fun n => n.id == x) = none := by
  rw [List.find?_eq_none]
  intro n hn hp
  have h2 : hasNode g x = true := by
    rw [hasNode, List.any_eq_true]
    exact ⟨n, hn, hp⟩
  rw [h2] at h
  exact Bool.noConfusion h

/-- Looking up a freshly appended node. -/
theorem getNode_append_new (g : Graph) (x : Str) (h : hasNode g x = false) :
    getNode { g with nodes := g.nodes ++ [{ id := x, attr := VMap.nil, edges := [] }] } x
      = some { id := x, attr := VMap.nil, edges := [] } := by
  show (g.nodes ++ [({ id := x, attr := VMap.nil, edges := [] } : Node)]).find?
      (fun n => n.id == x) = _
  rw [List.find?_append, find_none_of_not_hasNode g x h]
  simp [List.find?]

/-- Appending a node preserves presence of existing nodes. -/
theorem hasNode_append (g : Graph) (x : Str) (n : Node) :
    hasNode { g with nodes := g.nodes ++ [n] } x = (hasNode g x || (n.id == x)) := by
  simp [hasNode, List.any_append]

/-- The `add_edge` success equation: with both endpoints present, the new
edge is appended to the source node's edge list and the returned reference
is the source id with the previous edge count. -/
theorem addEdge_spec (g : Graph) (f t : Str) (a : VMap) (n : Node)
    (hf : getNode g f = some n) (ht : hasNode g t = true) :
    addEdge g f t a = .ok
      ({ g with nodes := g.nodes.map (fun m =>
          if m.id == f then { m with edges := m.edges ++ [{ tgt := t, attr := a }] } else m) },
       (f, n.edges.length)) := by
  rw [addEdge, hf, ht]
  simp

/-- After `add_edge`, the new edge appears among the target's inverse
edges, tagged with its source node id. -/
theorem mem_inverseEdges_after_addEdge (g : Graph) (f t : Str) (a : VMap) (n : Node)
    (hf : getNode g f = some n) :
    (f, { tgt := t, attr := a }) ∈ inverseEdges
      { g with nodes := g.nodes.map (fun m =>
          if m.id == f then { m with edges := m.edges ++ [{ tgt := t, attr := a }] } else m) } t := by
  have hf2 : g.nodes.find? (fun m => m.id == f) = some n := hf
  have hmem : n ∈ g.nodes := List.mem_of_find?_eq_some hf2
  have hid := List.find?_some hf2
  have hid2 : n.id = f := by simpa using hid
  have hupd : (fun m : Node => if m.id == f
      then { m with edges := m.edges ++ [{ tgt := t, attr := a }] } else m) n
      = ({ n with edges := n.edges ++ [{ tgt := t, attr := a }] } : Node) := by
    simp only [hid, if_true]
  rw [inverseEdges, List.mem_flatten]
  refine ⟨((({ n with edges := n.edges ++ [{ tgt := t, attr := a }] } : Node).edges.filter
      (fun e => e.tgt == t)).map
      (fun e => (({ n with edges := n.edges ++ [{ tgt := t, attr := a }] } : Node).id, e))), ?_, ?_⟩
  · rw [List.mem_map]
    refine ⟨{ n with edges := n.edges ++ [{ tgt := t, attr := a }] }, ?_, rfl⟩
    rw [← hupd]
    exact List.mem_map_of_mem _ hmem
  · have he : ({ tgt := t, attr := a } : EdgeOut) ∈
        ({ n with edges := n.edges ++ [{ tgt := t, attr := a }] } : Node).edges.filter
          (fun e => e.tgt == t) := by
      apply List.mem_filter_of_mem
      · simp
      · simp
    have h3 := List.mem_map_of_mem
      (fun e => (({ n with edges := n.edges ++ [{ tgt := t, attr := a }] } : Node).id, e)) he
    simpa [hid2] using h3

/-- A line starting with `<` never matches the forward-arrow form. -/
theorem fwdArrow_lt_none (s : Str) : fwdArrow ('<' :: s) = none := by
  rw [fwdArrow]
  simp [List.isPrefixOf]

/-- The inverse-arrow recognizer on a well-formed `<-REL- TARGET` line:
with a dash-free target carrying no whitespace and a dash-free non-empty
relation, it extracts exactly the relation and the target. -/
theorem invArrow_spec (rel tgt : Str) (hrel : rel ≠ []) (hreld : ('-') ∉ rel)
    (htgt : tgt ≠ []) (htgtWS : ∀ c ∈ tgt, isWS c = false) (htgtd : ('-') ∉ tgt) :
    invArrow ('<' :: '-' :: (rel ++ ('-') :: (' ') :: tgt)) = some (rel, tgt) := by
  have hpf : (("<-").toList).isPrefixOf ('<' :: '-' :: (rel ++ ('-') :: (' ') :: tgt)) = true := by
    simp [List.isPrefixOf]
  have hcount : ('<' :: '-' :: (rel ++ ('-') :: (' ') :: tgt)).count ('-') ≥ 2 := by
    simp [List.count_cons, List.count_append]
    omega
  have hcontains : (rel ++ ('-') :: (' ') :: tgt).contains ('-') = true := by
    have hm : ('-') ∈ rel ++ ('-') :: (' ') :: tgt := by
      apply List.mem_append_right
      exact List.mem_cons_self _ _
    simpa using hm
  have hrfind : rfindChar ('-') (rel ++ ('-') :: (' ') :: tgt) = some rel.length := by
    apply rfindChar_last
    intro hm
    rcases List.mem_cons.mp hm with h1 | h2
    · exact absurd h1 (by decide)
    · exact htgtd h2
  have hdp : rel.length > 0 := List.length_pos.mpr hrel
  have htake : (rel ++ ('-') :: (' ') :: tgt).take rel.length = rel := by
    simpa using List.take_left rel (('-') :: (' ') :: tgt)
  have hdrop : (rel ++ ('-') :: (' ') :: tgt).drop (rel.length + 1) = (' ') :: tgt := by
    have h2 : (rel ++ ('-') :: (' ') :: tgt) = (rel ++ [('-')]) ++ ((' ') :: tgt) := by simp
    have h3 : rel.length + 1 = (rel ++ [('-')]).length := by simp
    rw [h2, h3]
    exact List.drop_left _ _
  have hstriptgt : strip ((' ') :: tgt) = tgt := by
    have h2 := strip_of_all_nonWS tgt htgtWS
    rw [strip] at h2 ⊢
    rw [show ((' ') :: tgt) = List.replicate 1 (' ') ++ tgt from rfl, lstrip_replicate]
    exact h2
  have hcd : decide (('<' :: '-' :: (rel ++ ('-') :: (' ') :: tgt)).count ('-') ≥ 2) = true :=
    decide_eq_true hcount
  rw [invArrow, hpf, hcd]
  simp only [Bool.and_self, if_true]
  rw [show ('<' :: '-' :: (rel ++ ('-') :: (' ') :: tgt)).drop 2
      = rel ++ ('-') :: (' ') :: tgt from rfl]
  rw [hcontains]
  simp only [if_true]
  rw [hrfind]
  simp only
  rw [if_pos hdp, htake, hdrop, hstriptgt]
  simp [hrel, htgt, List.isEmpty_iff]

/-- Routing: an indented line (below a node header) that strips to `core`
and matches the inverse-arrow form is handled by the inverse edge step. -/
theorem parseLine_inv_route (st : PState) (k : Nat) (core rel tgt : Str)
    (hst : st.inList = false)
    (hne : core ≠ [])
    (hcm : (("#").toList).isPrefixOf core = false)
    (hlcore : lstrip core = core) (hrcore : rstrip core = core)
    (hk : 0 < k)
    (hfwd : fwdArrow core = none)
    (hinvA : invArrow core = some (rel, tgt)) :
    parseLine st (List.replicate k (' ') ++ core) = edgeStepInv st k rel tgt := by
  have hstrip := strip_pad k core hlcore hrcore
  have hindent := indent_pad k core hlcore
  have hneB : core.isEmpty = false := by simpa [List.isEmpty_iff] using hne
  have hk0 : (k == 0) = false := by
    simp only [beq_eq_false_iff_ne, ne_eq]
    omega
  rw [parseLine]
  simp only [hstrip, hindent, hneB, hcm, hst, hk0, hfwd, hinvA, Bool.or_self,
    Bool.false_and, Bool.false_eq_true, if_false]

/-- C4: an indented `<-RELATION- TARGET` line parsed with a current node
creates an edge from TARGET to the current node with attributes
`{type: RELATION}` — creating TARGET with empty attributes when absent —
and afterwards this edge appears in the current node's inverse edges. -/
theorem C4_inverse_arrow_edge (st : PState) (k : Nat) (rel tgt nid : Str)
    (hk : 0 < k)
    (hrel : rel ≠ []) (hreld : ('-') ∉ rel)
    (htgt : tgt ≠ []) (htgtWS : ∀ c ∈ tgt, isWS c = false) (htgtd : ('-') ∉ tgt)
    (hst : st.inList = false)
    (hcn : st.currentNode = some nid)
    (hnid : hasNode st.graph nid = true) :
    ∃ g2 idx,
      addEdge (if hasNode st.graph tgt then st.graph
               else { st.graph with nodes := st.graph.nodes ++
                        [{ id := tgt, attr := VMap.nil, edges := [] }] })
        tgt nid (typeAttr rel) = .ok (g2, (tgt, idx)) ∧
      parseLine st (List.replicate k (' ') ++ ('<' :: '-' :: (rel ++ ('-') :: (' ') :: tgt)))
        = .ok { st with graph := g2, currentEdge := some (tgt, idx), edgeIndent := k } ∧
      (tgt, { tgt := nid, attr := typeAttr rel }) ∈ inverseEdges g2 nid := by
  have hlcore : lstrip ('<' :: '-' :: (rel ++ ('-') :: (' ') :: tgt)) =
      '<' :: '-' :: (rel ++ ('-') :: (' ') :: tgt) := by
    rw [lstrip, List.dropWhile_cons]
    simp [isWS]
  have hrcore : rstrip ('<' :: '-' :: (rel ++ ('-') :: (' ') :: tgt)) =
      '<' :: '-' :: (rel ++ ('-') :: (' ') :: tgt) := by
    have h2 : '<' :: '-' :: (rel ++ ('-') :: (' ') :: tgt)
        = ('<' :: '-' :: (rel ++ [('-'), (' ')])) ++ tgt := by simp
    rw [h2]
    exact rstrip_append_nonWS _ tgt htgt htgtWS
  have hne : ('<' :: '-' :: (rel ++ ('-') :: (' ') :: tgt) : Str) ≠ [] := by simp
  have hcm : (("#").toList).isPrefixOf ('<' :: '-' :: (rel ++ ('-') :: (' ') :: tgt)) = false := by
    simp [List.isPrefixOf]
  have hroute := parseLine_inv_route st k _ rel tgt hst hne hcm hlcore hrcore hk
    (fwdArrow_lt_none _) (invArrow_spec rel tgt hrel hreld htgt htgtWS htgtd)
  by_cases hHas : hasNode st.graph tgt = true
  · obtain ⟨n0, hn0⟩ := getNode_of_hasNode st.graph tgt hHas
    have hAE := addEdge_spec st.graph tgt nid (typeAttr rel) n0 hn0 hnid
    refine ⟨{ st.graph with nodes := st.graph.nodes.map (fun m =>
        if m.id == tgt then { m with edges := m.edges ++ [{ tgt := nid, attr := typeAttr rel }] }
        else m) },
      n0.edges.length, ?_, ?_, ?_⟩
    · rw [if_pos hHas]
      exact hAE
    · rw [hroute, edgeStepInv]
      simp only [hHas, if_true, hcn, hAE]
    · exact mem_inverseEdges_after_addEdge st.graph tgt nid (typeAttr rel) n0 hn0
  · have hHasF : hasNode st.graph tgt = false := by simpa using hHas
    have hn0 := getNode_append_new st.graph tgt hHasF
    have hnidA : hasNode { st.graph with nodes := st.graph.nodes ++
        [{ id := tgt, attr := VMap.nil, edges := [] }] } nid = true := by
      rw [hasNode_append, hnid]
      simp
    have hAE := addEdge_spec _ tgt nid (typeAttr rel) _ hn0 hnidA
    have haddN : addNode st.graph tgt VMap.nil = .ok { st.graph with
        nodes := st.graph.nodes ++ [{ id := tgt, attr := VMap.nil, edges := [] }] } := by
      rw [addNode, hHasF]
      simp
    refine ⟨Graph.mk ((st.graph.nodes ++
        [({ id := tgt, attr := VMap.nil, edges := [] } : Node)]).map (fun m =>
          if m.id == tgt then { m with edges := m.edges ++ [{ tgt := nid, attr := typeAttr rel }] }
          else m))
        st.graph.meta,
      ([] : List EdgeOut).length, ?_, ?_, ?_⟩
    · rw [if_neg hHas]
      exact hAE
    · rw [hroute, edgeStepInv]
      simp only [hHasF, Bool.false_eq_true, if_false, haddN, hcn, hAE]
    · exact mem_inverseEdges_after_addEdge _ tgt nid (typeAttr rel) _ hn0

/-- The parser state of the C4/C7 witnesses: a one-node graph whose node
is current. -/
def c4State : PState :=
  { graph := { nodes := [{ id := ("a").toList, attr := VMap.nil, edges := [] }], meta := .nil },
    currentNode := some (("a").toList), currentEdge := none, edgeIndent := 0,
    inList := false, listKey := [], listItems := [], listIndent := 0 }

/-- C4 witness: the inverse-arrow step evaluated on `  <-r- b` under
current node `a`. -/
theorem C4_inverse_arrow_edge_witness :
    hasNode c4State.graph (("a").toList) = true ∧
    ∃ g2 idx,
      addEdge (if hasNode c4State.graph (("b").toList) then c4State.graph
               else { c4State.graph with nodes := c4State.graph.nodes ++
                        [{ id := ("b").toList, attr := VMap.nil, edges := [] }] })
        (("b").toList) (("a").toList) (typeAttr (("r").toList)) = .ok (g2, ((("b").toList), idx)) ∧
      parseLine c4State
        (List.replicate 2 (' ') ++ ('<' :: '-' :: ((("r").toList) ++ ('-') :: (' ') :: (("b").toList))))
        = .ok { c4State with
                graph := g2
                currentEdge := some ((("b").toList), idx)
                edgeIndent := 2 } ∧
      ((("b").toList), { tgt := ("a").toList, attr := typeAttr (("r").toList) })
        ∈ inverseEdges g2 (("a").toList) :=
  ⟨by decide,
   C4_inverse_arrow_edge c4State 2 (("r").toList) (("b").toList) (("a").toList)
     (by decide) (by decide) (by decide) (by decide) (by decide) (by decide)
     rfl rfl (by decide)⟩

/-- Routing: an indented line (below a node header) that strips to an
attribute-shaped `key=value` core is handled by the attribute tail. -/
theorem parseLine_attr_route (st : PState) (k : Nat) (kc : Char) (kt vs : Str)
    (hst : st.inList = false)
    (hk : 0 < k)
    (hkc1 : kc ≠ '#')
    (hkc2 : kc ≠ '-')
    (hkc3 : kc ≠ '<')
    (hkWS : ∀ c ∈ (kc :: kt), isWS c = false)
    (hr : rstrip ((kc :: kt) ++ ('=') :: vs) = (kc :: kt) ++ ('=') :: vs) :
    parseLine st (List.replicate k (' ') ++ ((kc :: kt) ++ ('=') :: vs))
      = attrStep st k ((kc :: kt) ++ ('=') :: vs) := by
  have hlcore : lstrip ((kc :: kt) ++ ('=') :: vs) = (kc :: kt) ++ ('=') :: vs := by
    rw [List.cons_append, lstrip, List.dropWhile_cons, hkWS kc (List.mem_cons_self kc kt)]
    simp
  have hstrip := strip_pad k ((kc :: kt) ++ ('=') :: vs) hlcore hr
  have hindent := indent_pad k ((kc :: kt) ++ ('=') :: vs) hlcore
  have hneB : ((kc :: kt) ++ ('=') :: vs).isEmpty = false := by simp
  have hcm : (("#").toList).isPrefixOf ((kc :: kt) ++ ('=') :: vs) = false := by
    rw [List.cons_append]
    simp only [List.isPrefixOf, String.toList, Bool.and_eq_false_imp]
    simp [beq_eq_false_iff_ne]
    intro h
    exact absurd h.symm hkc1
  have hfwd : fwdArrow ((kc :: kt) ++ ('=') :: vs) = none := by
    rw [fwdArrow, List.cons_append]
    have h2 : (("-").toList).isPrefixOf (kc :: (kt ++ ('=') :: vs)) = false := by
      simp only [List.isPrefixOf, String.toList]
      simp [beq_eq_false_iff_ne]
      intro h
      exact absurd h.symm hkc2
    rw [h2]
    simp
  have hinv : invArrow ((kc :: kt) ++ ('=') :: vs) = none := by
    rw [invArrow, List.cons_append]
    have h2 : (("<-").toList).isPrefixOf (kc :: (kt ++ ('=') :: vs)) = false := by
      simp only [List.isPrefixOf, String.toList]
      simp [beq_eq_false_iff_ne]
      intro h
      exact absurd h.symm hkc3
    rw [h2]
    simp
  have hk0 : (k == 0) = false := by
    simp only [beq_eq_false_iff_ne, ne_eq]
    omega
  rw [parseLine]
  simp only [hstrip, hindent, hneB, hcm, hst, hk0, hfwd, hinv, Bool.or_self,
    Bool.false_and, Bool.false_eq_true, if_false]

/-- The attribute tail on a scalar (non-list) value: the parsed value is
stored by the indent rule under the stripped key. -/
theorem attrStep_scalar (st : PState) (k : Nat) (kc : Char) (kt vs : Str)
    (hkWS : ∀ c ∈ (kc :: kt), isWS c = false)
    (hkeq : ('=') ∉ (kc :: kt))
    (hnb : (("[").toList).isPrefixOf (strip vs) = false) :
    attrStep st k ((kc :: kt) ++ ('=') :: vs)
      = storeAttr st k (kc :: kt) (parseValue (strip vs)) := by
  rw [attrStep, partitionEq_no_eq (kc :: kt) vs hkeq]
  simp only [strip_of_all_nonWS (kc :: kt) hkWS, hnb, Bool.false_eq_true, if_false]

/-- C7: an indented `key = value` line with a scalar value targets the
edge's attribute map when a current edge exists and the line is indented
strictly deeper than the edge's captured indent; otherwise it targets the
current node's attribute map and the current edge is cleared. -/
theorem C7_attr_indent_rule (st : PState) (k : Nat) (kc : Char) (kt vs : Str)
    (hst : st.inList = false)
    (hk : 0 < k)
    (hkc1 : kc ≠ '#') (hkc2 : kc ≠ '-') (hkc3 : kc ≠ '<')
    (hkWS : ∀ c ∈ (kc :: kt), isWS c = false)
    (hkeq : ('=') ∉ (kc :: kt))
    (hr : rstrip ((kc :: kt) ++ ('=') :: vs) = (kc :: kt) ++ ('=') :: vs)
    (hnb : (("[").toList).isPrefixOf (strip vs) = false) :
    (∀ r a, st.currentEdge = some r → st.edgeIndent < k →
      getEdgeAttr st.graph r = some a →
      parseLine st (List.replicate k (' ') ++ ((kc :: kt) ++ ('=') :: vs))
        = .ok { st with graph :=
            (setEdgeAttr st.graph r (mset a (kc :: kt) (parseValue (strip vs)))) }) ∧
    (∀ nid, st.currentNode = some nid →
      (st.currentEdge = none ∨ (∃ r, st.currentEdge = some r ∧ ¬ st.edgeIndent < k)) →
      parseLine st (List.replicate k (' ') ++ ((kc :: kt) ++ ('=') :: vs))
        = .ok { st with
                graph := nodeAttrSet st.graph nid (kc :: kt) (parseValue (strip vs))
                currentEdge := none }) := by
  have hroute := parseLine_attr_route st k kc kt vs hst hk hkc1 hkc2 hkc3 hkWS hr
  have hsc := attrStep_scalar st k kc kt vs hkWS hkeq hnb
  constructor
  · intro r a hce hlt ha
    rw [hroute, hsc, storeAttr, hce]
    simp only [gt_iff_lt, hlt, if_true, ha]
  · intro nid hcn hdisj
    rcases hdisj with hce | ⟨r, hce, hnlt⟩
    · rw [hroute, hsc, storeAttr, hce, storeAttrNode, hcn]
    · rw [hroute, hsc, storeAttr, hce]
      simp only [gt_iff_lt, hnlt, if_false]
      rw [storeAttrNode, hcn]

/-- The parser state of the C7 edge-branch witness: current edge captured
at indent 2. -/
def c7State : PState :=
  { graph :=
      (Graph.mk
        [Node.mk (("a").toList) VMap.nil [EdgeOut.mk (("b").toList) (typeAttr (("r").toList))],
         Node.mk (("b").toList) VMap.nil []]
        VMap.nil)
    currentNode := some (("a").toList)
    currentEdge := some ((("a").toList), 0)
    edgeIndent := 2
    inList := false
    listKey := []
    listItems := []
    listIndent := 0 }

/-- C7 witness: `    since= 2020` with a current edge captured at indent 2
targets the edge's attributes; the same line with no current edge targets
the node and clears the current edge. -/
theorem C7_attr_indent_rule_witness :
    (parseLine c7State
        (List.replicate 4 (' ') ++ ((('s') :: ("ince").toList) ++ ('=') :: (" 2020").toList))
      = .ok { c7State with graph :=
          (setEdgeAttr c7State.graph ((("a").toList), 0)
            (mset (typeAttr (("r").toList)) (('s') :: ("ince").toList)
              (parseValue (strip ((" 2020").toList))))) }) ∧
    (parseLine c4State
        (List.replicate 4 (' ') ++ ((('s') :: ("ince").toList) ++ ('=') :: (" 2020").toList))
      = .ok { c4State with
              graph :=
                (nodeAttrSet c4State.graph (("a").toList)
                  (('s') :: ("ince").toList) (parseValue (strip ((" 2020").toList))))
              currentEdge := none }) :=
  ⟨(C7_attr_indent_rule c7State 4 ('s') (("ince").toList) ((" 2020").toList)
      rfl (by decide) (by decide) (by decide) (by decide) (by decide) (by decide)
      (by decide) (by decide)).1 ((("a").toList), 0) (typeAttr (("r").toList))
      rfl (by decide) (by decide),
   (C7_attr_indent_rule c4State 4 ('s') (("ince").toList) ((" 2020").toList)
      rfl (by decide) (by decide) (by decide) (by decide) (by decide) (by decide)
      (by decide) (by decide)).2 (("a").toList) rfl (Or.inl rfl)⟩

/-- `takeWhile` up to the first closing bracket. -/
theorem takeWhile_until (pre post : Str) (hpre : (']') ∉ pre) :
    (pre ++ (']') :: post).takeWhile (fun c => c != (']')) = pre := by
  induction pre with
  | nil => simp [List.takeWhile_cons]
  | cons c t ih =>
    have hc : (c != (']')) = true := by
      have h2 : c ≠ (']') := fun h => hpre (h ▸ List.mem_cons_self c t)
      simpa using h2
    have ht : (']') ∉ t := fun hm => hpre (List.mem_cons_of_mem c hm)
    rw [List.cons_append, List.takeWhile_cons, hc]
    simp [ih ht]

/-- The attribute tail on a value that strips to a lone `[`: the parser
enters multi-line list mode, remembering the key and the opening indent,
with no items yet. -/
theorem attrStep_listOpen (st : PState) (k : Nat) (kc : Char) (kt vs : Str)
    (hkWS : ∀ c ∈ (kc :: kt), isWS c = false)
    (hkeq : ('=') ∉ (kc :: kt))
    (hso : strip vs = [('[')]) :
    attrStep st k ((kc :: kt) ++ ('=') :: vs)
      = .ok { st with
              inList := true
              listKey := kc :: kt
              listItems := []
              listIndent := k } := by
  rw [attrStep, partitionEq_no_eq (kc :: kt) vs hkeq]
  simp only [strip_of_all_nonWS (kc :: kt) hkWS, hso]
  simp [List.isPrefixOf, List.isSuffixOf, strip, lstrip, rstrip]

/-- Routing an opener line: an indented `key = [` line enters list mode. -/
theorem parseLine_listOpen (st : PState) (k : Nat) (kc : Char) (kt vs : Str)
    (hst : st.inList = false)
    (hk : 0 < k)
    (hkc1 : kc ≠ '#') (hkc2 : kc ≠ '-') (hkc3 : kc ≠ '<')
    (hkWS : ∀ c ∈ (kc :: kt), isWS c = false)
    (hkeq : ('=') ∉ (kc :: kt))
    (hr : rstrip ((kc :: kt) ++ ('=') :: vs) = (kc :: kt) ++ ('=') :: vs)
    (hso : strip vs = [('[')]) :
    parseLine st (List.replicate k (' ') ++ ((kc :: kt) ++ ('=') :: vs))
      = .ok { st with
              inList := true
              listKey := kc :: kt
              listItems := []
              listIndent := k } :=
  (parseLine_attr_route st k kc kt vs hst hk hkc1 hkc2 hkc3 hkWS hr).trans
    (attrStep_listOpen st k kc kt vs hkWS hkeq hso)

/-- In list mode, a content line with no `]` is appended as one item,
re-parsed with trailing commas stripped. -/
theorem parseLine_listItem (st : PState) (raw : Str)
    (hst : st.inList = true)
    (h1 : strip raw ≠ [])
    (h2 : (("#").toList).isPrefixOf (strip raw) = false)
    (h3 : (strip raw).contains (']') = false) :
    parseLine st raw
      = .ok { st with listItems := st.listItems ++ [parseListItem (strip raw)] } := by
  rw [parseLine]
  simp only [h1, h2, hst, h3, List.isEmpty_iff, Bool.or_self, Bool.false_eq_true,
    if_false, if_true]
  simp [h1, h2]

/-- In list mode, a line containing `]` closes the list: any non-blank
text before the first `]` is appended as a last item and the list is
saved. -/
theorem parseLine_listClose (st : PState) (raw pre post : Str)
    (hst : st.inList = true)
    (hcm : (("#").toList).isPrefixOf (strip raw) = false)
    (hcl : strip raw = pre ++ (']') :: post)
    (hpre : (']') ∉ pre) :
    parseLine st raw = storeList st
      (if (strip pre).isEmpty then st.listItems
       else st.listItems ++ [parseListItem pre]) := by
  have hne : strip raw ≠ [] := by rw [hcl]; simp
  have hcontains : (strip raw).contains (']') = true := by
    have hm : (']') ∈ strip raw := by rw [hcl]; simp
    simpa using hm
  have htw : (strip raw).takeWhile (fun c => c != (']')) = pre := by
    rw [hcl]
    exact takeWhile_until pre post hpre
  rw [parseLine]
  simp only [hne, hcm, hst, hcontains, htw, List.isEmpty_iff, Bool.or_self,
    Bool.false_eq_true, if_false, if_true]
  simp [hne, hcm]

/-- Folding consecutive in-list content lines accumulates their parsed
items in order. -/
theorem parseLines_items : ∀ (ms : List Str) (st : PState) (rest : List Str),
    st.inList = true →
    (∀ m ∈ ms, strip m ≠ [] ∧ (("#").toList).isPrefixOf (strip m) = false ∧
      (strip m).contains (']') = false) →
    parseLines st (ms ++ rest)
      = parseLines { st with listItems :=
          (st.listItems ++ ms.map (fun m => parseListItem (strip m))) } rest
  | [], st, rest, _, _ => by simp
  | m :: t, st, rest, hst, hms => by
    obtain ⟨h1, h2, h3⟩ := hms m (List.mem_cons_self m t)
    rw [List.cons_append, parseLines, parseLine_listItem st m hst h1 h2 h3]
    show parseLines { st with listItems := st.listItems ++ [parseListItem (strip m)] }
      (t ++ rest) = _
    rw [parseLines_items t { st with listItems := st.listItems ++ [parseListItem (strip m)] }
      rest hst (fun x hx => hms x (List.mem_cons_of_mem m hx))]
    congr 1
    simp

/-- C6: an indented `key = [` line with no closing bracket starts a
multi-line list; each subsequent non-blank, non-comment line without `]`
is collected as one item (re-parsed with trailing commas stripped); a line
containing `]` ends the list, any text before the `]` becoming a last
item; and the resulting list is stored under the key in the current
node. -/
theorem C6_multiline_list (st : PState) (k : Nat) (kc : Char) (kt vs : Str)
    (ms : List Str) (closer pre post : Str) (nid : Str)
    (hst : st.inList = false)
    (hcn : st.currentNode = some nid)
    (hce : st.currentEdge = none)
    (hk : 0 < k)
    (hkc1 : kc ≠ '#') (hkc2 : kc ≠ '-') (hkc3 : kc ≠ '<')
    (hkWS : ∀ c ∈ (kc :: kt), isWS c = false)
    (hkeq : ('=') ∉ (kc :: kt))
    (hr : rstrip ((kc :: kt) ++ ('=') :: vs) = (kc :: kt) ++ ('=') :: vs)
    (hso : strip vs = [('[')])
    (hms : ∀ m ∈ ms, strip m ≠ [] ∧ (("#").toList).isPrefixOf (strip m) = false ∧
      (strip m).contains (']') = false)
    (hclcm : (("#").toList).isPrefixOf (strip closer) = false)
    (hcl : strip closer = pre ++ (']') :: post)
    (hpre : (']') ∉ pre) :
    parseLines st ((List.replicate k (' ') ++ ((kc :: kt) ++ ('=') :: vs)) :: (ms ++ [closer]))
      = .ok { st with
              graph :=
                (nodeAttrSet st.graph nid (kc :: kt)
                  (.list (toVList (ms.map (fun m => parseListItem (strip m)) ++
                    (if (strip pre).isEmpty then [] else [parseListItem pre])))))
              inList := false
              listKey := []
              listItems := []
              listIndent := 0 } := by
  have hopen := parseLine_listOpen st k kc kt vs hst hk hkc1 hkc2 hkc3 hkWS hkeq hr hso
  rw [parseLines, hopen]
  show parseLines { st with
      inList := true
      listKey := kc :: kt
      listItems := []
      listIndent := k } (ms ++ [closer]) = _
  rw [parseLines_items ms _ [closer] rfl hms]
  show parseLines { st with
      inList := true
      listKey := kc :: kt
      listItems := [] ++ ms.map (fun m => parseListItem (strip m))
      listIndent := k } [closer] = _
  rw [parseLines]
  rw [parseLine_listClose _ closer pre post rfl hclcm hcl hpre]
  by_cases hp : (strip pre).isEmpty = true
  · simp [storeList, storeListNode, hce, hcn, parseLines, hp]
  · have hp2 : (strip pre).isEmpty = false := by simpa using hp
    simp [storeList, storeListNode, hce, hcn, parseLines, hp2]

/-- The parser state of the C6 witness: the `me` node of scenario S3 is
current. -/
def c6State : PState :=
  { graph := (Graph.mk [Node.mk (("me").toList) VMap.nil []] VMap.nil)
    currentNode := some (("me").toList)
    currentEdge := none
    edgeIndent := 0
    inList := false
    listKey := []
    listItems := []
    listIndent := 0 }

/-- C6 witness: scenario S3 — the multi-line list parses to the
two-element list of strings. -/
theorem C6_multiline_list_witness :
    parseLines c6State
      ((List.replicate 4 (' ') ++ ((('l') :: ("ikes_libraries").toList) ++ ('=') :: (" [").toList))
        :: ([("        \"a pretty library\",").toList,
             ("        \"a graph library\",").toList] ++ [("    ]").toList]))
      = .ok { c6State with
              graph :=
                (nodeAttrSet c6State.graph (("me").toList) (('l') :: ("ikes_libraries").toList)
                  (.list (.cons (.str (("a pretty library").toList))
                    (.cons (.str (("a graph library").toList)) .nil))))
              inList := false
              listKey := []
              listItems := []
              listIndent := 0 } :=
  (C6_multiline_list c6State 4 ('l') (("ikes_libraries").toList) ((" [").toList)
      [("        \"a pretty library\",").toList, ("        \"a graph library\",").toList]
      (("    ]").toList) [] [] (("me").toList)
      rfl rfl rfl (by decide) (by decide) (by decide) (by decide) (by decide) (by decide)
      (by decide) (by decide) (by decide) (by decide) (by decide) (by decide)).trans
    (by decide)

/-- The no-revisit random-walk generator invariant: starting from a
duplicate-free walk ending at `u`, the generated walk extends it by a
chain of steps along outgoing edges into nodes not yet on the walk, stays
duplicate-free, grows by at most the fuel, and stops early only when no
candidate remains. -/
theorem genWalkAux_false_spec : ∀ (g : Graph) (fuel : Nat) (walk : List Str)
    (ea : List VMap) (u : Str) (rng : List Nat),
    walk.getLast? = some u → walk.Nodup →
    ((genWalkAux g false fuel walk ea u rng).1.length ≤ walk.length + fuel) ∧
    (genWalkAux g false fuel walk ea u rng).1.Nodup ∧
    (∃ t, (genWalkAux g false fuel walk ea u rng).1 = walk ++ t ∧
      chainOkFrom g walk u t = true) ∧
    ((genWalkAux g false fuel walk ea u rng).1.length < walk.length + fuel →
      ∀ uL, (genWalkAux g false fuel walk ea u rng).1.getLast? = some uL →
        walkCands g (genWalkAux g false fuel walk ea u rng).1 uL false = [])
  | g, 0, walk, ea, u, rng, hlast, hnd => by
    rw [genWalkAux]
    refine ⟨by simp, hnd, ⟨[], by simp, by simp [chainOkFrom]⟩, ?_⟩
    intro hlt
    simp at hlt
  | g, fuel + 1, walk, ea, u, rng, hlast, hnd => by
    rw [genWalkAux]
    by_cases hc : (walkCands g walk u false).isEmpty = true
    · have hcE : walkCands g walk u false = [] := by simpa using hc
      simp only [hc, if_true]
      refine ⟨by simp, hnd, ⟨[], by simp, by simp [chainOkFrom]⟩, ?_⟩
      intro _ uL huL
      have huL2 : u = uL := by
        have h4 : some u = some uL := by rw [← hlast, ← huL]
        injection h4
      rw [← huL2]
      exact hcE
    · have hcF : (walkCands g walk u false).isEmpty = false := by simpa using hc
      simp only [hcF, Bool.false_eq_true, if_false]
      set e := (walkCands g walk u false).getD
          ((rng.headD 0) % (walkCands g walk u false).length)
          { tgt := [], attr := VMap.nil } with hEdef
      have hlen : 0 < (walkCands g walk u false).length := by
        cases hx : walkCands g walk u false with
        | nil => rw [hx] at hcF; simp at hcF
        | cons a t => simp
      have hi : (rng.headD 0) % (walkCands g walk u false).length
          < (walkCands g walk u false).length := Nat.mod_lt _ hlen
      have he : e ∈ walkCands g walk u false := by
        rw [hEdef, List.getD_eq_getElem?_getD, List.getElem?_eq_getElem hi]
        exact List.getElem_mem hi
      have he2 := List.mem_filter.mp he
      have heOut : e ∈ outEdges g u := he2.1
      have heNotMem : e.tgt ∉ walk := by
        have h3 := he2.2
        simp only [Bool.false_or] at h3
        intro hmem
        have h5 : walk.contains e.tgt = true := by simpa using hmem
        rw [h5] at h3
        exact Bool.noConfusion h3
      have hlast2 : (walk ++ [e.tgt]).getLast? = some e.tgt := by simp
      have hnd2 : (walk ++ [e.tgt]).Nodup := by
        simp [List.nodup_append, hnd, heNotMem]
      obtain ⟨ihLen, ihNd, ⟨t2, ihEq, ihChain⟩, ihEarly⟩ :=
        genWalkAux_false_spec g fuel (walk ++ [e.tgt]) (ea ++ [e.attr]) e.tgt
          rng.tail hlast2 hnd2
      refine ⟨?_, ihNd, ?_, ?_⟩
      · have h6 : (walk ++ [e.tgt]).length = walk.length + 1 := by simp
        omega
      · refine ⟨e.tgt :: t2, by simpa using ihEq, ?_⟩
        rw [chainOkFrom]
        have hstep1 : (outEdges g u).any (fun e2 => e2.tgt == e.tgt) = true := by
          rw [List.any_eq_true]
          exact ⟨e, heOut, by simp⟩
        have hstep2 : walk.contains e.tgt = false := by
          rw [Bool.eq_false_iff]
          intro h4
          exact heNotMem (by simpa using h4)
        rw [hstep1, hstep2, ihChain]
        rfl
      · intro hlt uL huL
        apply ihEarly ?_ uL huL
        have h6 : (walk ++ [e.tgt]).length = walk.length + 1 := by simp
        omega

/-- Is a list a well-formed no-revisit walk from `start`?  Empty walks
(possible only when the length bound is 0) are vacuously fine; otherwise
the walk starts at `start` and each step follows an outgoing edge to a new
node. -/
def noRevisitWalkOk (g : Graph) (start : Str) : List Str → Bool
  | [] => true
  | b :: rest => (b == start) && chainOkFrom g [start] start rest

/-- C8: with revisits disallowed, every returned walk has pairwise
distinct node ids, at most `len` nodes and at least `minLen` nodes
(shorter walks are discarded and not replaced, so at most `count` walks
are returned); a walk starts at the root, extends only along outgoing
edges whose target is not already on the walk, and terminates early only
when no such edge exists. -/
theorem C8_random_walks_no_revisit (g : Graph) (start : Str)
    (len count minLen : Nat) (field : Option Str) (rngs : List (List Nat)) :
    (randomWalks g start len count minLen false false field rngs).length ≤ count ∧
    ∀ w ∈ randomWalks g start len count minLen false false field rngs,
      minLen ≤ w.length ∧ w.length ≤ len ∧ w.Nodup ∧
      noRevisitWalkOk g start w = true ∧
      (w.length < len → ∀ uL, w.getLast? = some uL → walkCands g w uL false = []) := by
  constructor
  · have h := List.length_filterMap_le (fun i =>
      let r := genWalk g start len false (rngs.getD i [])
      if minLen ≤ r.1.length then
        some (if false = true then interleave field r.1 r.2 else r.1)
      else none) (List.range count)
    simpa [randomWalks] using h
  · intro w hw
    rw [randomWalks, List.mem_filterMap] at hw
    obtain ⟨i, _, hfi⟩ := hw
    by_cases hlen0 : len = 0
    · subst hlen0
      rw [genWalk] at hfi
      simp at hfi
      obtain ⟨hmin, hw0⟩ := hfi
      subst hw0
      refine ⟨by simp [hmin], by simp, by simp, by simp [noRevisitWalkOk], ?_⟩
      intro h
      simp at h
    · have hlast0 : ([start] : List Str).getLast? = some start := by simp
      have hnd0 : ([start] : List Str).Nodup := by simp
      obtain ⟨sLen, sNd, ⟨t, sEq, sChain⟩, sEarly⟩ :=
        genWalkAux_false_spec g (len - 1) [start] [] start (rngs.getD i []) hlast0 hnd0
      have hgw : genWalk g start len false (rngs.getD i [])
          = genWalkAux g false (len - 1) [start] [] start (rngs.getD i []) := by
        rw [genWalk]
        simp [hlen0]
      rw [hgw] at hfi
      by_cases hmin : minLen ≤
          (genWalkAux g false (len - 1) [start] [] start (rngs.getD i [])).1.length
      · rw [if_pos hmin] at hfi
        injection hfi with h6
        have hw2 : w = (genWalkAux g false (len - 1) [start] [] start (rngs.getD i [])).1 :=
          h6.symm
        have hone : ([start] : List Str).length = 1 := rfl
        refine ⟨?_, ?_, ?_, ?_, ?_⟩
        · rw [hw2]
          exact hmin
        · rw [hw2]
          omega
        · rw [hw2]
          exact sNd
        · rw [hw2, sEq]
          show noRevisitWalkOk g start (start :: t) = true
          simp [noRevisitWalkOk, sChain]
        · intro hlt uL huL
          rw [hw2] at hlt huL ⊢
          apply sEarly ?_ uL huL
          omega
      · rw [if_neg hmin] at hfi
        exact absurd hfi (by simp)

/-- The S4 graph: edges `n1 → n2`, `n2 → n1`, `n2 → n3`. -/
def s4Graph : Graph :=
  Graph.mk
    [Node.mk (("n1").toList) VMap.nil [EdgeOut.mk (("n2").toList) (typeAttr (("x").toList))],
     Node.mk (("n2").toList) VMap.nil
       [EdgeOut.mk (("n1").toList) (typeAttr (("x").toList)),
        EdgeOut.mk (("n3").toList) (typeAttr (("y").toList))],
     Node.mk (("n3").toList) VMap.nil []]
    VMap.nil

/-- C8 witness: scenario S4 with `allow_revisit = false` — the walk
`[n1, n2, n3]` is produced, is duplicate-free and follows the no-revisit
chain discipline. -/
theorem C8_random_walks_no_revisit_witness :
    ([("n1").toList, ("n2").toList, ("n3").toList]
        ∈ randomWalks s4Graph (("n1").toList) 3 5 3 false false none []) ∧
    (([("n1").toList, ("n2").toList, ("n3").toList] : List Str)).Nodup ∧
    noRevisitWalkOk s4Graph (("n1").toList)
      [("n1").toList, ("n2").toList, ("n3").toList] = true :=
  ⟨by decide,
   ((C8_random_walks_no_revisit s4Graph (("n1").toList) 3 5 3 none []).2
      [("n1").toList, ("n2").toList, ("n3").toList] (by decide)).2.2.1,
   ((C8_random_walks_no_revisit s4Graph (("n1").toList) 3 5 3 none []).2
      [("n1").toList, ("n2").toList, ("n3").toList] (by decide)).2.2.2.1⟩

mutual
/-- JSON decoding inverts JSON encoding on every value. -/
theorem jsonToValue_valueToJson : ∀ v : Value, jsonToValue (valueToJson v) = some v
  | .null => rfl
  | .bool _ => rfl
  | .int _ => rfl
  | .float _ => rfl
  | .str _ => rfl
  | .list xs => by
    simp [valueToJson, jsonToValue, jarrToVList_vlistToJArr xs]
  | .vmap m => by
    simp [valueToJson, jsonToValue, jobjToVMap_vmapToJObj m]

/-- JSON array decoding inverts encoding of value lists. -/
theorem jarrToVList_vlistToJArr : ∀ xs : VList, jarrToVList (vlistToJArr xs) = some xs
  | .nil => rfl
  | .cons v t => by
    simp [vlistToJArr, jarrToVList, jsonToValue_valueToJson v, jarrToVList_vlistToJArr t]

/-- JSON object decoding inverts encoding of value maps. -/
theorem jobjToVMap_vmapToJObj : ∀ m : VMap, jobjToVMap (vmapToJObj m) = some m
  | .nil => rfl
  | .cons k v t => by
    simp [vmapToJObj, jobjToVMap, jsonToValue_valueToJson v, jobjToVMap_vmapToJObj t]
end

/-- Edge-list decoding inverts encoding. -/
theorem valueToEdges_edgesToValue : ∀ es : List EdgeOut,
    valueToEdges (edgesToValue es) = some es
  | [] => rfl
  | e :: t => by
    have ih := valueToEdges_edgesToValue t
    simp [edgesToValue, valueToEdges, edgeToValue, valueToEdge, ih]

/-- Node decoding inverts encoding. -/
theorem valueToNode_nodeToValue (n : Node) : valueToNode (nodeToValue n) = some n := by
  simp [nodeToValue, valueToNode, valueToEdges_edgesToValue n.edges]

/-- Node-array decoding inverts encoding. -/
theorem valueToNodes_nodesToValue : ∀ ns : List Node,
    valueToNodes (nodesToValue ns) = some ns
  | [] => rfl
  | n :: t => by
    have ih := valueToNodes_nodesToValue t
    simp [nodesToValue, valueToNodes, valueToNode_nodeToValue n, ih]

/-- Graph decoding inverts the logical serialization schema. -/
theorem valueToGraph_graphToValue (g : Graph) : valueToGraph (graphToValue g) = some g := by
  simp [graphToValue, valueToGraph, valueToNodes_nodesToValue g.nodes]

mutual
/-- The binary decoder inverts the binary encoder on any value, given at
least `vsize` fuel, and leaves the remaining tokens intact. -/
theorem decV_encV : ∀ (v : Value) (fuel : Nat) (rest : List BTok), vsize v ≤ fuel →
    decV fuel (encV v ++ rest) = some (v, rest)
  | .null, fuel, rest, h => by
    cases fuel with
    | zero => simp [vsize] at h
    | succ f => simp [encV, decV]
  | .bool b, fuel, rest, h => by
    cases fuel with
    | zero => simp [vsize] at h
    | succ f => simp [encV, decV]
  | .int z, fuel, rest, h => by
    cases fuel with
    | zero => simp [vsize] at h
    | succ f => simp [encV, decV]
  | .float x, fuel, rest, h => by
    cases fuel with
    | zero => simp [vsize] at h
    | succ f => simp [encV, decV]
  | .str s, fuel, rest, h => by
    cases fuel with
    | zero => simp [vsize] at h
    | succ f => simp [encV, decV]
  | .list xs, fuel, rest, h => by
    cases fuel with
    | zero => simp [vsize] at h
    | succ f =>
      have hle : lsize xs ≤ f := by
        simp [vsize] at h
        omega
      have ih := decL_encL xs f rest hle
      simp [encV, decV, ih]
  | .vmap m, fuel, rest, h => by
    cases fuel with
    | zero => simp [vsize] at h
    | succ f =>
      have hle : msize m ≤ f := by
        simp [vsize] at h
        omega
      have ih := decM_encM m f rest hle
      simp [encV, decV, ih]

/-- The binary decoder inverts the encoder on value lists. -/
theorem decL_encL : ∀ (xs : VList) (fuel : Nat) (rest : List BTok), lsize xs ≤ fuel →
    decL fuel (llen xs) (encL xs ++ rest) = some (xs, rest)
  | .nil, fuel, rest, h => by
    cases fuel with
    | zero => simp [lsize] at h
    | succ f => simp [encL, llen, decL]
  | .cons v t, fuel, rest, h => by
    cases fuel with
    | zero => simp [lsize] at h
    | succ f =>
      have h2 : lsize (.cons v t) = 1 + vsize v + lsize t := by simp [lsize]
      have ih1 := decV_encV v f (encL t ++ rest) (by omega)
      have ih2 := decL_encL t f rest (by omega)
      show decL (f + 1) (llen t + 1) ((encV v ++ encL t) ++ rest) = _
      rw [List.append_assoc, decL, ih1]
      simp [ih2]

/-- The binary decoder inverts the encoder on value maps. -/
theorem decM_encM : ∀ (m : VMap) (fuel : Nat) (rest : List BTok), msize m ≤ fuel →
    decM fuel (mlen m) (encM m ++ rest) = some (m, rest)
  | .nil, fuel, rest, h => by
    cases fuel with
    | zero => simp [msize] at h
    | succ f => simp [encM, mlen, decM]
  | .cons k v t, fuel, rest, h => by
    cases fuel with
    | zero => simp [msize] at h
    | succ f =>
      have h2 : msize (.cons k v t) = 1 + vsize v + msize t := by simp [msize]
      have ih1 := decV_encV v f (encM t ++ rest) (by omega)
      have ih2 := decM_encM t f rest (by omega)
      show decM (f + 1) (mlen t + 1) ((BTok.tstr k :: (encV v ++ encM t)) ++ rest) = _
      rw [List.cons_append, List.append_assoc, decM, ih1]
      simp [ih2]
end

mutual
/-- The structural size of a value is dominated by its binary length. -/
theorem vsize_bound : ∀ v : Value, vsize v + 1 ≤ 4 * (encV v).length
  | .null => by simp [vsize, encV]
  | .bool _ => by simp [vsize, encV]
  | .int _ => by simp [vsize, encV]
  | .float _ => by simp [vsize, encV]
  | .str _ => by simp [vsize, encV]
  | .list xs => by
    have h := lsize_bound xs
    simp [vsize, encV]
    omega
  | .vmap m => by
    have h := msize_bound m
    simp [vsize, encV]
    omega

/-- Size bound for value lists. -/
theorem lsize_bound : ∀ xs : VList, lsize xs ≤ 4 * (encL xs).length + 2
  | .nil => by simp [lsize, encL]
  | .cons v t => by
    have h1 := vsize_bound v
    have h2 := lsize_bound t
    simp [lsize, encL]
    omega

/-- Size bound for value maps. -/
theorem msize_bound : ∀ m : VMap, msize m ≤ 4 * (encM m).length + 2
  | .nil => by simp [msize, encM]
  | .cons k v t => by
    have h1 := vsize_bound v
    have h2 := msize_bound t
    simp [msize, encM]
    omega
end

/-- C2: loading the result of saving any graph yields the graph back —
same nodes in order, same per-node edges in order, same attribute maps and
meta — both through the JSON format and through the binary format. -/
theorem C2_round_trip (g : Graph) :
    loadFromJson (saveToJson g) = some g ∧
    loadFromBinary (saveToBinary g) = some g := by
  constructor
  · rw [saveToJson, loadFromJson, jsonToValue_valueToJson]
    exact valueToGraph_graphToValue g
  · rw [saveToBinary, loadFromBinary]
    have h1 := vsize_bound (graphToValue g)
    have h2 := decV_encV (graphToValue g) (4 * (encV (graphToValue g)).length) []
      (by omega)
    rw [List.append_nil] at h2
    rw [h2]
    exact valueToGraph_graphToValue g

end Ironweaver
